import Mathlib

/-!
A verification development for the Tiny x86 OS kernel.

Each section shallowly embeds one subsystem of the kernel, staying as close
as possible to the C++ source:

* `Bitmap` embeds `src/kernel/util/bitmap.cpp` (byte-array bit allocator).
* The memory section embeds `src/kernel/memory/pool.cpp` (physical and
  virtual page pools, the composed page allocator, the slab-style heap).
* The file-system section embeds the file read/write/seek operations of
  `src/kernel/io/disk/part.cpp` over a byte-addressed sector disk.
* The path-search section embeds `Disk::FilePart::SearchPath`.
* The semaphore section embeds `sync::Semaphore` from
  `include/kernel/thread/sync.h`.

Machine integers (`stl::size_t` is a 32-bit unsigned integer on this
target) are modelled as `Nat` with explicit reduction modulo `2 ^ 32`
wherever the C++ computation can wrap.  A `dbg::Assert` whose failure halts
the kernel is modelled by returning `none` (written `Option.none`), so a
`some` result means the operation completed without tripping any assertion.
-/

namespace OS

/-- The modulus of 32-bit unsigned arithmetic (`stl::size_t` is `unsigned int`). -/
def u32 : Nat := 2 ^ 32

/-- The invalid-index sentinel from `metric.h`: `static_cast<stl::size_t>(-1)`. -/
def npos : Nat := u32 - 1

/-- `RoundUpDivide` from `metric.h`. -/
def RoundUpDivide (dividend divisor : Nat) : Nat :=
  (dividend + divisor - 1) / divisor

/-! ## The bitmap (`src/kernel/util/bitmap.cpp`)

The bitmap stores bits in a byte buffer `bits_` of length `byte_len_`.
We model the buffer as a list of byte values; well-formedness (`Wf`) states
that every byte is below 256, which the C++ type `stl::uint8_t` guarantees.
Bit `idx` lives in byte `idx / 8` at position `idx % 8`, tested with
`bit::IsBitSet(val, idx) = val & (1 << idx)`. -/

structure Bitmap where
  bytes : List Nat
deriving Repr, DecidableEq

namespace Bitmap

/-- Every stored byte fits in `stl::uint8_t`. -/
def Wf (bm : Bitmap) : Prop :=
  ∀ b ∈ bm.bytes, b < 256

/-- `Bitmap::GetByteLen`. -/
def byteLen (bm : Bitmap) : Nat := bm.bytes.length

/-- `Bitmap::GetCapacity`: `byte_len_ * bit::byte_len`. -/
def capacity (bm : Bitmap) : Nat := bm.byteLen * 8

/-- `Bitmap::IsAlloc`: test bit `idx % 8` of byte `idx / 8`. -/
def IsAlloc (bm : Bitmap) (idx : Nat) : Bool :=
  Nat.testBit (bm.bytes.getD (idx / 8) 0) (idx % 8)

/-- `Bitmap::SetBit`: set or clear one bit inside its byte. -/
def SetBit (bm : Bitmap) (idx : Nat) (val : Bool) : Bitmap :=
  let byteIdx := idx / 8
  let b := bm.bytes.getD byteIdx 0
  let b' := match val with
    | true => b ||| 2 ^ (idx % 8)
    | false => b &&& (255 - 2 ^ (idx % 8))
  ⟨bm.bytes.set byteIdx b'⟩

/-- `Bitmap::Set`: mark `count` bits starting at `begin` (the C++ loop runs
`i` from `0` to `count - 1`, setting bit `i + begin`). -/
def Set (bm : Bitmap) (begin0 : Nat) : Nat → Bitmap
  | 0 => bm
  | n + 1 => (bm.Set begin0 n).SetBit (n + begin0) true

/-- `Bitmap::Reset` (and `Bitmap::Free`): clear `count` bits starting at `begin`. -/
def Reset (bm : Bitmap) (begin0 : Nat) : Nat → Bitmap
  | 0 => bm
  | n + 1 => (bm.Reset begin0 n).SetBit (n + begin0) false

/-- The first `while` loop of `Bitmap::Alloc`: skip bytes equal to `0xFF`;
the result is the index of the first byte below `0xFF`, or the byte length
when every byte is full. -/
def firstNonFullByte : List Nat → Nat
  | [] => 0
  | b :: rest => if b = 255 then firstNonFullByte rest + 1 else 0

/-- The second `while` loop of `Bitmap::Alloc`, with the remaining scan
length as structural fuel (the wrapper below supplies exactly `8 - j`, so
the zero-fuel case is the loop exit at `j = 8`). -/
def firstClearBitFromAux (b : Nat) : Nat → Nat → Nat
  | 0, _j => 8
  | fuel + 1, j =>
    if j < 8 then
      if Nat.testBit b j then firstClearBitFromAux b fuel (j + 1) else j
    else 8

/-- The second `while` loop of `Bitmap::Alloc`: the first clear bit inside a
byte, scanning bit positions from `j` up to `8`. -/
def firstClearBitFrom (b : Nat) (j : Nat) : Nat :=
  firstClearBitFromAux b (8 - j) j

/-- The final `for` loop of `Bitmap::Alloc`, with the remaining scan length
as structural fuel (the wrapper supplies exactly `capacity - i`, so the
zero-fuel case is the loop exit at the capacity). -/
def allocScanAux (bm : Bitmap) (count : Nat) : Nat → Nat → Nat → Option Nat
  | 0, _i, _found => none
  | fuel + 1, i, found =>
    if bm.IsAlloc i then allocScanAux bm count fuel (i + 1) 0
    else if found + 1 = count then some (i + 1 - count)
    else allocScanAux bm count fuel (i + 1) (found + 1)

/-- The final `for` loop of `Bitmap::Alloc`: scan indices from `i` to the
capacity, counting consecutive clear bits in `found`; when the count reaches
`count`, the run begins at `i + 1 - count`. -/
def allocScan (bm : Bitmap) (count : Nat) (i found : Nat) : Option Nat :=
  allocScanAux bm count (bm.capacity - i) i found

/-- `Bitmap::Alloc`: returns the updated bitmap and the start index of the
allocated run, or `npos` with the bitmap unchanged when no run of `count`
clear bits exists.  The debug assertion `bit_idx < bit::byte_len` always
holds for well-formed bytes, so it needs no failure case. -/
def Alloc (bm : Bitmap) (count : Nat) : Bitmap × Nat :=
  let byteIdx := firstNonFullByte bm.bytes
  if byteIdx = bm.byteLen then (bm, npos)
  else
    let bitIdx := firstClearBitFrom (bm.bytes.getD byteIdx 0) 0
    let start := byteIdx * 8 + bitIdx
    match bm.allocScan count start 0 with
    | some begin0 => (bm.Set begin0 count, begin0)
    | none => (bm, npos)

/-- A run of `n` clear bits starting at `s`. -/
def FreeRun (bm : Bitmap) (s n : Nat) : Prop :=
  ∀ j < n, bm.IsAlloc (s + j) = false

/-- Some run of `n` clear bits fits inside the bitmap. -/
def HasRun (bm : Bitmap) (n : Nat) : Prop :=
  ∃ s, s + n ≤ bm.capacity ∧ bm.FreeRun s n

instance (bm : Bitmap) (s n : Nat) : Decidable (bm.FreeRun s n) := by
  unfold FreeRun; infer_instance

instance (bm : Bitmap) : Decidable bm.Wf := by
  unfold Wf; infer_instance

/-- The number of clear bits of the bitmap. -/
def freeBits (bm : Bitmap) : Nat :=
  ((Finset.range bm.capacity).filter (fun i => bm.IsAlloc i = false)).card

end Bitmap

/-! ## Memory pools and the heap allocator (`src/kernel/memory/pool.cpp`)

The physical page pool and the virtual-address pool are bitmaps of page
frames plus a base address and a free count.  The composed page allocator
maps each allocated physical page at the next virtual address; the
slab-style heap carves pages into arenas of fixed-size blocks.

The page-directory and page-table residency bookkeeping of
`VrAddr::MapToPhyAddr` (installing a page-directory entry through the
self-referential mapping and zeroing a fresh page table) is raw MMU memory
layout and is abstracted into a single association list from virtual page
bases to physical page bases; `MapToPhyAddr` asserts that the target page
table entry is not already present, which the model keeps.  The pool locks
serialize threads and have no effect in this sequential model. -/

def page_size : Nat := 4096

/-- `krnl_base` from `krnl.h`. -/
def krnl_base : Nat := 0xC0000000

/-- `krnl_heap_base` from `pool.cpp`. -/
def krnl_heap_base : Nat := krnl_base + 0x00100000

/-- `AlignToPageBase` from `page.h`: `BackwardAlign(addr, page_size)`. -/
def AlignToPageBase (addr : Nat) : Nat := addr - addr % page_size

/-- `CalcPageCount` from `page.h`: `ForwardAlign(size, page_size) / page_size`. -/
def CalcPageCount (size : Nat) : Nat := RoundUpDivide size page_size

/-- `sizeof(MemArena)` on the 32-bit target: a 4-byte `MemBlockDesc*`, a
4-byte `stl::size_t` count and a `bool` padded to 4 bytes. -/
def memArenaSize : Nat := 12

/-- `VrAddrPool`: `{start_vr_addr_, bitmap_, free_count_}`. -/
structure VrAddrPool where
  startVrAddr : Nat
  bitmap : Bitmap
  freeCount : Nat

/-- `PhyMemPagePool`: `{start_phy_addr_, bitmap_, free_count_}`. -/
structure PhyMemPagePool where
  startPhyAddr : Nat
  bitmap : Bitmap
  freeCount : Nat

/-- `VrAddrPool::AllocPages`: reserve `count` contiguous page bits; the
C++ returns `0` (the null address) when the bitmap has no run.  The debug
assertions (`count > 0`, `free_count_ >= count`) are modelled as `none`. -/
def VrAddrPool.AllocPages (p : VrAddrPool) (count : Nat) : Option (VrAddrPool × Nat) :=
  if count = 0 then none
  else
    let r := p.bitmap.Alloc count
    if r.2 ≠ npos then
      if count ≤ p.freeCount then
        some ({ p with bitmap := r.1, freeCount := p.freeCount - count },
          p.startVrAddr + r.2 * page_size)
      else none
    else some (p, 0)

/-- `VrAddrPool::FreePages`: clear `count` page bits starting at `vr_base`;
asserts the base is in range and page-aligned. -/
def VrAddrPool.FreePages (p : VrAddrPool) (vrBase count : Nat) : Option VrAddrPool :=
  if count = 0 then none
  else if p.startVrAddr ≤ vrBase ∧ vrBase % page_size = 0 then
    let bitIdx := (vrBase - p.startVrAddr) / page_size
    some { p with bitmap := p.bitmap.Reset bitIdx count, freeCount := p.freeCount + count }
  else none

/-- `PhyMemPagePool::AllocPages`, identical in shape to the VA pool. -/
def PhyMemPagePool.AllocPages (p : PhyMemPagePool) (count : Nat) :
    Option (PhyMemPagePool × Nat) :=
  if count = 0 then none
  else
    let r := p.bitmap.Alloc count
    if r.2 ≠ npos then
      if count ≤ p.freeCount then
        some ({ p with bitmap := r.1, freeCount := p.freeCount - count },
          p.startPhyAddr + r.2 * page_size)
      else none
    else some (p, 0)

/-- `PhyMemPagePool::FreePages`. -/
def PhyMemPagePool.FreePages (p : PhyMemPagePool) (phyBase count : Nat) :
    Option PhyMemPagePool :=
  if count = 0 then none
  else if p.startPhyAddr ≤ phyBase ∧ phyBase % page_size = 0 then
    let bitIdx := (phyBase - p.startPhyAddr) / page_size
    some { p with bitmap := p.bitmap.Reset bitIdx count, freeCount := p.freeCount + count }
  else none

/-- Installed virtual-to-physical page mappings, keyed by virtual page base. -/
def PageMap : Type := List (Nat × Nat)

/-- Look up the physical page mapped at a virtual page base
(`VrAddr::GetPhyAddr` on a page-aligned address). -/
def PageMap.lookup (m : PageMap) (va : Nat) : Option Nat :=
  (List.find? (fun e => decide (e.1 = va)) m).map (fun e => e.2)

/-- `VrAddr::Unmap`: clear the page-table entry for the address. -/
def PageMap.unmap (m : PageMap) (va : Nat) : PageMap :=
  List.filter (fun e => decide (e.1 ≠ va)) m

/-- `MemBlockDesc`: `{block_size_, block_count_per_arena_, free_blocks_}`;
the free list stores block addresses, front first (`TagList::Pop` takes the
element after the head sentinel and `PushBack` inserts before the tail). -/
structure MemBlockDesc where
  blockSize : Nat
  blockCountPerArena : Nat
  freeBlocks : List Nat
deriving Repr, DecidableEq

/-- `MemBlockDesc::Init`: `block_count_per_arena_ = (page_size - sizeof(MemArena)) / block_size`. -/
def MemBlockDesc.Init (blockSize : Nat) : MemBlockDesc :=
  ⟨blockSize, (page_size - memArenaSize) / blockSize, []⟩

/-- `MemBlockDescTab::Init`: seven descriptors with block sizes doubling
from `min_block_size` 16 up to `max_block_size` 1024. -/
def initDescs : List MemBlockDesc :=
  [16, 32, 64, 128, 256, 512, 1024].map MemBlockDesc.Init

/-- `MemArena`: the header at the start of every arena page; small arenas
point back to their descriptor (modelled by its table index). -/
structure MemArena where
  descIdx : Option Nat
  count : Nat
  large : Bool
deriving Repr, DecidableEq

/-- The kernel memory-management state used by `mem::Allocate`, `mem::Free`,
`mem::AllocPages` and `mem::FreePages` for one pool type. -/
structure MemState where
  phys : PhyMemPagePool
  va : VrAddrPool
  pageMap : PageMap
  arenas : List (Nat × MemArena)
  descs : List MemBlockDesc

/-- Read the arena header at a page base (`MemBlock::GetArena`). -/
def MemState.arenaAt (st : MemState) (base : Nat) : Option MemArena :=
  (List.find? (fun e => decide (e.1 = base)) st.arenas).map (fun e => e.2)

/-- Write the arena header at a page base. -/
def MemState.setArena (st : MemState) (base : Nat) (ar : MemArena) : MemState :=
  { st with arenas := (base, ar) :: List.filter (fun e => decide (e.1 ≠ base)) st.arenas }

/-- Drop the arena header when its page is released. -/
def MemState.eraseArena (st : MemState) (base : Nat) : MemState :=
  { st with arenas := List.filter (fun e => decide (e.1 ≠ base)) st.arenas }

/-- `VrAddr::MapToPhyAddr`: asserts the page-table entry is not already
present, then installs the mapping. -/
def MemState.mapToPhy (st : MemState) (va phys : Nat) : Option MemState :=
  match st.pageMap.lookup va with
  | some _ => none
  | none => some { st with pageMap := (va, phys) :: st.pageMap }

/-- One iteration of the loop in the static `FreePages(mem_pool, addr_pool,
vr_base, count)`: read the mapped physical page, free it and clear the
page-table entry. -/
def MemState.freePhysOne (st : MemState) (vrAddr : Nat) : Option MemState :=
  match st.pageMap.lookup vrAddr with
  | none => none
  | some phys =>
    if phys % page_size = 0 then
      match st.phys.FreePages phys 1 with
      | none => none
      | some pp => some { st with phys := pp, pageMap := st.pageMap.unmap vrAddr }
    else none

/-- The `for` loop of the static `FreePages`, freeing pages `0 .. count-1`. -/
def freePhysLoop (vrBase : Nat) : Nat → MemState → Option MemState
  | 0, st => some st
  | k + 1, st => do
    let st' ← freePhysLoop vrBase k st
    st'.freePhysOne (vrBase + k * page_size)

/-- The static `FreePages(mem_pool, addr_pool, vr_base, count)` of
`pool.cpp`: free each mapped physical page, unmap it, then free the
contiguous virtual addresses. -/
def MemState.FreePagesInner (st : MemState) (vrBase count : Nat) : Option MemState :=
  if vrBase = 0 ∨ count = 0 then none
  else do
    let st' ← freePhysLoop vrBase count st
    let va' ← st'.va.FreePages vrBase count
    some { st' with va := va' }

/-- The `for` loop of the static `AllocPages(mem_pool, addr_pool, count)`,
including its partial-failure handling: when the physical allocation at
index `i` fails, rollback runs only for `i > 0` (the `if (i > 0)` guard in
the source); at `i = 0` the function returns null directly. -/
def allocPagesLoopAux (vrBase count : Nat) :
    Nat → Nat → MemState → Option (MemState × Nat)
  | 0, _i, st => some (st, vrBase)
  | fuel + 1, i, st =>
    match st.phys.AllocPages 1 with
    | none => none
    | some (pp, phy) =>
      if phy ≠ 0 then
        match MemState.mapToPhy { st with phys := pp } (vrBase + i * page_size) phy with
        | none => none
        | some st' => allocPagesLoopAux vrBase count fuel (i + 1) st'
      else
        if 0 < i then do
          let st1 ← st.FreePagesInner vrBase i
          let va2 ← st1.va.FreePages (vrBase + i * page_size) (count - i)
          some ({ st1 with va := va2 }, 0)
        else some (st, 0)

def allocPagesLoop (vrBase count : Nat) (i : Nat) (st : MemState) :
    Option (MemState × Nat) :=
  allocPagesLoopAux vrBase count (count - i) i st

/-- `mem::AllocPages(type, count)` composed with the static
`AllocPages(mem_pool, addr_pool, count)`: reserve `count` virtual pages,
then allocate and map each physical page (the returned region is zeroed,
which has no observable effect here since page contents are not modelled). -/
def MemState.AllocPages (st : MemState) (count : Nat) : Option (MemState × Nat) :=
  if count = 0 then none
  else
    match st.va.AllocPages count with
    | none => none
    | some (va', vrBase) =>
      if vrBase = 0 then some (st, 0)
      else allocPagesLoop vrBase count 0 { st with va := va' }

/-- `mem::FreePages(vr_base, count)` (for one pool type, lock elided). -/
def MemState.FreePages (st : MemState) (vrBase count : Nat) : Option MemState :=
  st.FreePagesInner vrBase count

/-- The default descriptor placeholder used for list indexing. -/
def noDesc : MemBlockDesc := ⟨0, 0, []⟩

/-- `MemBlockDescTab::GetMinDesc`: index of the first descriptor whose block
size is at least `size`. -/
def getMinDescIdx (descs : List MemBlockDesc) (size : Nat) : Option Nat :=
  List.findIdx? (fun d => decide (size ≤ d.blockSize)) descs

/-- The tail of `mem::Allocate`'s small-block path: pop the front block of
the descriptor's free list, zero it, and decrement its arena's count. -/
def MemState.popBlock (st : MemState) (di : Nat) : Option (MemState × Nat) :=
  let desc := st.descs.getD di noDesc
  match desc.freeBlocks with
  | [] => none
  | blk :: rest =>
    let base := AlignToPageBase blk
    match st.arenaAt base with
    | none => none
    | some ar =>
      if ar.count = 0 then none
      else
        some (({ st with descs := st.descs.set di { desc with freeBlocks := rest } }).setArena
          base { ar with count := ar.count - 1 }, blk)

/-- `mem::Allocate(type, size)`: large requests become multi-page arenas;
small requests are served from the matching descriptor's free list,
refilling it with a fresh one-page arena when empty. -/
def MemState.Allocate (st : MemState) (size : Nat) : Option (MemState × Nat) :=
  if size = 0 then none
  else if st.phys.freeCount * page_size < size then some (st, 0)
  else if 1024 < size then
    let pageCount := CalcPageCount (size + memArenaSize)
    match st.AllocPages pageCount with
    | none => none
    | some (st', base) =>
      if base = 0 then none
      else
        some ((st'.setArena base ⟨none, pageCount, true⟩), base + memArenaSize)
  else
    match getMinDescIdx st.descs size with
    | none => none
    | some di =>
      let desc := st.descs.getD di noDesc
      if desc.freeBlocks.isEmpty then
        match st.AllocPages 1 with
        | none => none
        | some (st1, base) =>
          if base = 0 then none
          else
            let blocks := (List.range desc.blockCountPerArena).map
              (fun i => base + memArenaSize + i * desc.blockSize)
            let st2 := (st1.setArena base ⟨some di, desc.blockCountPerArena, false⟩)
            let descB := { desc with freeBlocks := desc.freeBlocks ++ blocks }
            let st3 := { st2 with descs := st2.descs.set di descB }
            st3.popBlock di
      else st.popBlock di

/-- The block addresses of a small arena at page base `base`
(`MemArena::GetBlock` for indices `0 .. count-1`). -/
def arenaBlocks (base : Nat) (desc : MemBlockDesc) : List Nat :=
  (List.range desc.blockCountPerArena).map (fun i => base + memArenaSize + i * desc.blockSize)

/-- `mem::Free(type, vr_base)`: null is a no-op; large arenas release their
pages; small blocks return to their descriptor's free list, and a fully
free arena detaches all of its blocks and releases its page. -/
def MemState.Free (st : MemState) (vrBase : Nat) : Option MemState :=
  if vrBase = 0 then some st
  else
    let base := AlignToPageBase vrBase
    match st.arenaAt base with
    | none => none
    | some ar =>
      if ar.large then
        if ar.descIdx = none then st.FreePages base ar.count else none
      else
        match ar.descIdx with
        | none => none
        | some di =>
          let desc := st.descs.getD di noDesc
          let desc1 := { desc with freeBlocks := desc.freeBlocks ++ [vrBase] }
          if ar.count + 1 = desc.blockCountPerArena then
            if (arenaBlocks base desc).all (fun b => desc1.freeBlocks.contains b) then
              let remaining := desc1.freeBlocks.filter (fun b => decide (b ∉ arenaBlocks base desc))
              let desc2 := { desc1 with freeBlocks := remaining }
              let st1 := { st with descs := st.descs.set di desc2 }
              (st1.eraseArena base).FreePages base 1
            else none
          else
            some (({ st with descs := st.descs.set di desc1 }).setArena base
              { ar with count := ar.count + 1 })

/-! ## The file system: file write, seek and read (`src/kernel/io/disk/part.cpp`)

The disk is a function from sector LBAs to sectors, and a sector is a
function from byte offsets to byte values.  The index node is embedded with
its twelve direct LBAs as a function and the single indirect-table LBA;
the indirect table occupies one sector holding 128 little-endian 32-bit
LBAs.  `stl::size_t` arithmetic that can wrap (`curr_size + size`,
`file.pos = curr_size - 1`) is reduced modulo `2 ^ 32`. -/

def sector_size : Nat := 512

/-- `fs::IdxNode::direct_block_count`. -/
def direct_block_count : Nat := 12

/-- `sector_count_per_inode`: 12 direct + 128 indirect blocks. -/
def sector_count_per_inode : Nat := 140

/-- `max_file_count_per_part` from `part.cpp`. -/
def max_file_count_per_part : Nat := 0x1000

/-- `sizeof(fs::IdxNode)` on the 32-bit target: an 8-byte tag, three 4-byte
fields, a padded `bool`, twelve direct LBAs and the indirect-table LBA. -/
def sizeof_IdxNode : Nat := 76

/-- One 512-byte sector, as a byte function. -/
def Sector : Type := Nat → Nat

/-- The disk contents, by sector LBA. -/
def DiskData : Type := Nat → Sector

/-- `Disk::ReadSectors` for a single sector. -/
def DiskData.readSector (d : DiskData) (lba : Nat) : Sector := d lba

/-- `Disk::WriteSectors` for a single sector. -/
def DiskData.writeSector (d : DiskData) (lba : Nat) (s : Sector) : DiskData :=
  fun l => if l = lba then s else d l

/-- Read the little-endian 32-bit word at word index `w` of a sector. -/
def readLE32 (s : Sector) (w : Nat) : Nat :=
  s (4 * w) % 256 + 256 * (s (4 * w + 1) % 256) + 65536 * (s (4 * w + 2) % 256)
    + 16777216 * (s (4 * w + 3) % 256)

/-- The sector image of the 128-entry tail `lbas + 12` of a block-LBA
array, as written to the single indirect block table. -/
def lbasTabSector (lbas : Nat → Nat) : Sector :=
  fun off => lbas (direct_block_count + off / 4) / 256 ^ (off % 4) % 256

/-- The in-memory `fs::IdxNode` (the open-times, write-deny and tag fields
play no role in the file operations modelled here). -/
structure IdxNode where
  idx : Nat
  size : Nat
  directLbas : Nat → Nat
  indirectTabLba : Nat

/-- `IdxNode::GetDirectLba` (its `idx < direct_block_count` assertion holds
at every call site reachable in the modelled operations). -/
def IdxNode.GetDirectLba (nd : IdxNode) (i : Nat) : Nat := nd.directLbas i

/-- `IdxNode::SetDirectLba`. -/
def IdxNode.SetDirectLba (nd : IdxNode) (i lba : Nat) : IdxNode :=
  { nd with directLbas := fun j => if j = i then lba else nd.directLbas j }

/-- `IdxNode::GetIndirectTabLba`. -/
def IdxNode.GetIndirectTabLba (nd : IdxNode) : Nat := nd.indirectTabLba

/-- `IdxNode::SetIndirectTabLba`. -/
def IdxNode.SetIndirectTabLba (nd : IdxNode) (lba : Nat) : IdxNode :=
  { nd with indirectTabLba := lba }

/-- The byte image of an index node as written by `SyncNode` after
`CloneToPure` (tag, open times and write-deny zeroed); field offsets follow
the 32-bit struct layout of `fs::IdxNode`. -/
def inodeByte (nd : IdxNode) (off : Nat) : Nat :=
  if off < 8 then 0
  else if off < 12 then nd.idx / 256 ^ (off - 8) % 256
  else if off < 16 then nd.size / 256 ^ (off - 12) % 256
  else if off < 24 then 0
  else if off < 72 then nd.directLbas ((off - 24) / 4) / 256 ^ ((off - 24) % 4) % 256
  else if off < 76 then nd.indirectTabLba / 256 ^ (off - 72) % 256
  else 0

/-- An open file (`fs::File`): its index node and access offset. -/
structure FsFile where
  inode : IdxNode
  pos : Nat

/-- The per-partition state used by the file operations: the disk, the
in-memory block bitmap, and the super-block geometry consulted by
`AllocBlock`, `SyncBlockBitmap` and `SyncNode`. -/
structure FsPart where
  disk : DiskData
  blockBitmap : Bitmap
  dataStartLba : Nat
  blockBitmapStartLba : Nat
  inodesStartLba : Nat
  partStartLba : Nat
  partSectorCount : Nat

/-- `Disk::FilePart::AllocBlock`: a bitmap index plus `data_start_lba`, or
`npos` when the bitmap is full. -/
def FsPart.AllocBlock (p : FsPart) : FsPart × Nat :=
  let r := p.blockBitmap.Alloc 1
  if r.2 ≠ npos then ({ p with blockBitmap := r.1 }, r.2 + p.dataStartLba)
  else (p, npos)

/-- `Disk::FilePart::FreeBlock`: asserts the LBA is inside the data area. -/
def FsPart.FreeBlock (p : FsPart) (lba : Nat) : Option FsPart :=
  if p.dataStartLba ≤ lba then
    some { p with blockBitmap := p.blockBitmap.Reset (lba - p.dataStartLba) 1 }
  else none

/-- `Disk::FilePart::SyncBlockBitmap`: write the bitmap sector containing
the block's bit back to the partition. -/
def FsPart.SyncBlockBitmap (p : FsPart) (lba : Nat) : Option FsPart :=
  if p.dataStartLba ≤ lba then
    let bitIdx := lba - p.dataStartLba
    let sectorOffset := bitIdx / (sector_size * 8)
    let byteOffset := sectorOffset * sector_size
    let sec : Sector := fun off => p.blockBitmap.bytes.getD (byteOffset + off) 0
    some { p with disk := p.disk.writeSector (p.blockBitmapStartLba + sectorOffset) sec }
  else none

/-- `Disk::FilePart::SyncNode`: locate the node's sector(s) from its index
(`IdxNodePos`), read them, overwrite the node's bytes and write them back. -/
def FsPart.SyncNode (p : FsPart) (nd : IdxNode) : Option FsPart :=
  if nd.idx < max_file_count_per_part then
    let offset := nd.idx * sizeof_IdxNode
    let offInSec := offset % sector_size
    let lba := p.inodesStartLba + offset / sector_size
    if lba < p.partStartLba + p.partSectorCount then
      let buf : Nat → Nat := fun off =>
        if off < sector_size then p.disk.readSector lba off
        else p.disk.readSector (lba + 1) (off - sector_size)
      let buf' : Nat → Nat := fun off =>
        if offInSec ≤ off ∧ off < offInSec + sizeof_IdxNode then inodeByte nd (off - offInSec)
        else buf off
      let d1 := p.disk.writeSector lba (fun off => buf' off)
      let acrossSectors := sector_size - offInSec < sizeof_IdxNode
      let d2 := if acrossSectors then d1.writeSector (lba + 1) (fun off => buf' (off + sector_size))
        else d1
      some { p with disk := d2 }
    else none
  else none

/-- The intermediate result of `WriteFile`'s block-collection phase: either
an early return carrying the final triple, or the updated partition, index
node and collected LBA array to hand to the write loop. -/
inductive WritePhase where
  | early (p : FsPart) (f : FsFile) (written : Nat)
  | proceed (p : FsPart) (nd : IdxNode) (lbas : Nat → Nat)

/-- The block-allocation `for` loop shared by `WriteFile`'s three
growing-file branches: allocate a block for each new sector index in
`[i, newSC)`, record it in `lbas`, wire direct slots below twelve when
`wireDirect` is set, and sync the bitmap; stops early on exhaustion
returning the first unallocated index. -/
def allocBlockLoopAux (wireDirect : Bool) (newSC : Nat) :
    Nat → Nat → FsPart → IdxNode → (Nat → Nat) →
      Option (FsPart × IdxNode × (Nat → Nat) × Option Nat)
  | 0, _i, p, nd, lbas => some (p, nd, lbas, none)
  | fuel + 1, i, p, nd, lbas =>
    let r := p.AllocBlock
    if r.2 ≠ npos then
      if wireDirect ∧ i < direct_block_count then
        if nd.GetDirectLba i = 0 then
          let nd' := nd.SetDirectLba i r.2
          if lbas i = 0 then
            match r.1.SyncBlockBitmap r.2 with
            | none => none
            | some p' =>
              allocBlockLoopAux wireDirect newSC fuel (i + 1) p' nd'
                (fun j => if j = i then r.2 else lbas j)
          else none
        else none
      else
        if lbas i = 0 then
          match r.1.SyncBlockBitmap r.2 with
          | none => none
          | some p' =>
            allocBlockLoopAux wireDirect newSC fuel (i + 1) p' nd
              (fun j => if j = i then r.2 else lbas j)
        else none
    else some (p, nd, lbas, some i)

def allocBlockLoop (wireDirect : Bool) (newSC : Nat) (i : Nat) (p : FsPart) (nd : IdxNode)
    (lbas : Nat → Nat) : Option (FsPart × IdxNode × (Nat → Nat) × Option Nat) :=
  allocBlockLoopAux wireDirect newSC (newSC - i) i p nd lbas

/-- The rollback loop of the direct-blocks branch: walk the new sector
range, clearing and freeing direct LBAs until a zero slot is met. -/
def rollbackDirectAux (newSC : Nat) :
    Nat → Nat → FsPart → IdxNode → Option (FsPart × IdxNode)
  | 0, _i, p, nd => some (p, nd)
  | fuel + 1, i, p, nd =>
    let lba := nd.GetDirectLba i
    if lba ≠ 0 then
      let nd' := nd.SetDirectLba i 0
      match p.FreeBlock lba with
      | none => none
      | some p1 =>
        match p1.SyncBlockBitmap lba with
        | none => none
        | some p2 => rollbackDirectAux newSC fuel (i + 1) p2 nd'
    else some (p, nd)

def rollbackDirect (newSC : Nat) (i : Nat) (p : FsPart) (nd : IdxNode) :
    Option (FsPart × IdxNode) :=
  rollbackDirectAux newSC (newSC - i) i p nd

/-- The rollback loop of the mixed and indirect branches: walk the new
sector range freeing every recorded `lbas[i]` (clearing direct slots below
twelve when `wireDirect` is set) until a zero entry is met. -/
def rollbackLbasAux (wireDirect : Bool) (newSC : Nat) :
    Nat → Nat → FsPart → IdxNode → (Nat → Nat) → Option (FsPart × IdxNode)
  | 0, _i, p, nd, _lbas => some (p, nd)
  | fuel + 1, i, p, nd, lbas =>
    if lbas i ≠ 0 then
      let nd' := if wireDirect ∧ i < direct_block_count then
        if nd.GetDirectLba i ≠ 0 then nd.SetDirectLba i 0 else nd
        else nd
      if wireDirect ∧ i < direct_block_count ∧ nd.GetDirectLba i = 0 then none
      else
        match p.FreeBlock (lbas i) with
        | none => none
        | some p1 =>
          match p1.SyncBlockBitmap (lbas i) with
          | none => none
          | some p2 => rollbackLbasAux wireDirect newSC fuel (i + 1) p2 nd' lbas
    else some (p, nd)

def rollbackLbas (wireDirect : Bool) (newSC : Nat) (i : Nat) (p : FsPart) (nd : IdxNode)
    (lbas : Nat → Nat) : Option (FsPart × IdxNode) :=
  rollbackLbasAux wireDirect newSC (newSC - i) i p nd lbas

/-- The block-collection phase of `Disk::FilePart::WriteFile` (everything
before the write loop): the size check, the branch on whether the file
grows, the block allocations with their rollbacks, and the indirect-table
bookkeeping. -/
def writeFilePhase (p : FsPart) (f : FsFile) (size : Nat) : Option WritePhase :=
  let nd := f.inode
  let currSize := nd.size
  if (currSize + size) % u32 > sector_count_per_inode * sector_size then
    some (.early p f 0)
  else
    let lbas0 : Nat → Nat := fun _ => 0
    let currSC := RoundUpDivide currSize sector_size
    let newSC := RoundUpDivide ((currSize + size) % u32) sector_size
    if ¬ (currSC ≤ newSC ∧ newSC ≤ sector_count_per_inode) then none
    else if currSC = newSC then
      if newSC ≤ direct_block_count then
        let lastIdx := currSize / sector_size
        let lba := nd.GetDirectLba lastIdx
        if lba = 0 then none
        else some (.proceed p nd (fun j => if j = lastIdx then lba else lbas0 j))
      else
        let tabLba := nd.GetIndirectTabLba
        if tabLba = 0 then none
        else
          let lbas1 : Nat → Nat := fun j =>
            if direct_block_count ≤ j ∧ j < sector_count_per_inode then
              readLE32 (p.disk.readSector tabLba) (j - direct_block_count)
            else lbas0 j
          some (.proceed p nd lbas1)
    else
      if newSC ≤ direct_block_count then
        let lbas1 : Nat → Nat :=
          if currSize % sector_size ≠ 0 then
            fun j => if j = currSize / sector_size then nd.GetDirectLba (currSize / sector_size)
              else lbas0 j
          else lbas0
        if currSize % sector_size ≠ 0 ∧ nd.GetDirectLba (currSize / sector_size) = 0 then none
        else
          match allocBlockLoop true newSC currSC p nd lbas1 with
          | none => none
          | some (p1, nd1, lbas2, failedAt) =>
            match failedAt with
            | none => some (.proceed p1 nd1 lbas2)
            | some _ =>
              match rollbackDirect newSC currSC p1 nd1 with
              | none => none
              | some (p2, nd2) => some (.early p2 { f with inode := nd2 } 0)
      else if currSC ≤ direct_block_count then
        let lbas1 : Nat → Nat :=
          if currSize % sector_size ≠ 0 then
            fun j => if j = currSize / sector_size then nd.GetDirectLba (currSize / sector_size)
              else lbas0 j
          else lbas0
        if currSize % sector_size ≠ 0 ∧ nd.GetDirectLba (currSize / sector_size) = 0 then none
        else
          let r := p.AllocBlock
          if r.2 = npos then some (.early r.1 f 0)
          else if nd.GetIndirectTabLba ≠ 0 then none
          else
            let tabLba := r.2
            let nd1 := nd.SetIndirectTabLba tabLba
            match allocBlockLoop true newSC currSC r.1 nd1 lbas1 with
            | none => none
            | some (p1, nd2, lbas2, failedAt) =>
              match failedAt with
              | none =>
                let p2 := { p1 with disk := p1.disk.writeSector tabLba (lbasTabSector lbas2) }
                some (.proceed p2 nd2 lbas2)
              | some _ =>
                match rollbackLbas true newSC currSC p1 nd2 lbas2 with
                | none => none
                | some (p2, nd3) =>
                  if nd3.GetIndirectTabLba = 0 then none
                  else
                    let nd4 := nd3.SetIndirectTabLba 0
                    match p2.FreeBlock tabLba with
                    | none => none
                    | some p3 =>
                      match p3.SyncBlockBitmap tabLba with
                      | none => none
                      | some p4 => some (.early p4 { f with inode := nd4 } 0)
      else
        let tabLba := nd.GetIndirectTabLba
        if tabLba = 0 then none
        else
          let lbas1 : Nat → Nat := fun j =>
            if direct_block_count ≤ j ∧ j < sector_count_per_inode then
              readLE32 (p.disk.readSector tabLba) (j - direct_block_count)
            else lbas0 j
          match allocBlockLoop false newSC currSC p nd lbas1 with
          | none => none
          | some (p1, nd1, lbas2, failedAt) =>
            match failedAt with
            | none =>
              let p2 := { p1 with disk := p1.disk.writeSector tabLba (lbasTabSector lbas2) }
              some (.proceed p2 nd1 lbas2)
            | some _ =>
              match rollbackLbas false newSC currSC p1 nd1 lbas2 with
              | none => none
              | some (p2, nd2) => some (.early p2 { f with inode := nd2 } 0)

/-- The write loop of `WriteFile`: on the first iteration the target sector
is read to preserve its old bytes; every iteration blits a chunk into the
one-sector window and writes it back, advancing `written`, `file.pos` and
`inode.size` by the chunk size. -/
def writeLoopAux (data : Nat → Nat) (size : Nat) (lbas : Nat → Nat) :
    Nat → Bool → Nat → FsPart → IdxNode → Nat → FsPart × IdxNode × Nat × Nat
  | 0, _isFirst, written, p, nd, pos => (p, nd, written, pos)
  | fuel + 1, isFirst, written, p, nd, pos =>
    if written < size then
      let sectorIdx := nd.size / sector_size
      let offInSec := nd.size % sector_size
      let leftInSec := sector_size - offInSec
      let chunk := min (size - written) leftInSec
      let base : Sector := if isFirst then p.disk.readSector (lbas sectorIdx) else fun _ => 0
      let sec : Sector := fun off =>
        if offInSec ≤ off ∧ off < offInSec + chunk then data (written + (off - offInSec))
        else base off
      let p' := { p with disk := p.disk.writeSector (lbas sectorIdx) sec }
      writeLoopAux data size lbas fuel false (written + chunk) p'
        { nd with size := (nd.size + chunk) % u32 } ((pos + chunk) % u32)
    else (p, nd, written, pos)

def writeLoop (data : Nat → Nat) (size : Nat) (lbas : Nat → Nat) (isFirst : Bool)
    (written : Nat) (p : FsPart) (nd : IdxNode) (pos : Nat) :
    FsPart × IdxNode × Nat × Nat :=
  writeLoopAux data size lbas (size - written) isFirst written p nd pos

/-- `Disk::FilePart::WriteFile(fs::File&, data, size)`: the block-collection
phase, then `file.pos = curr_size - 1` (32-bit wrap), the write loop, and a
final `SyncNode`.  Returns the updated partition and file with the byte
count written. -/
def WriteFile (p : FsPart) (f : FsFile) (data : Nat → Nat) (size : Nat) :
    Option (FsPart × FsFile × Nat) :=
  match writeFilePhase p f size with
  | none => none
  | some (.early p' f' w) => some (p', f', w)
  | some (.proceed p' nd lbas) =>
    let pos0 := (nd.size + u32 - 1) % u32
    let r := writeLoop data size lbas true 0 p' nd pos0
    match r.1.SyncNode r.2.1 with
    | none => none
    | some p2 => some (p2, ⟨r.2.1, r.2.2.2⟩, r.2.2.1)

/-- `File::SeekOrigin`. -/
inductive SeekOrigin where
  | Begin
  | Curr
  | End
deriving DecidableEq, Repr

/-- `Disk::FilePart::SeekFile(fs::File&, offset, origin)`: the signed
32-bit `offset` is converted to `stl::size_t` (two's complement) by
`stl::min<stl::size_t>` and the unsigned additions `pos + offset` and
`size + offset`; each case clamps with unsigned `min` against the size. -/
def SeekFile (f : FsFile) (offset : Int) (origin : SeekOrigin) : Option (FsFile × Nat) :=
  let size := f.inode.size
  let off32 : Nat := (offset % (2 ^ 32 : Int)).toNat
  let newPos := match origin with
    | .Begin => min off32 size
    | .Curr => min ((f.pos + off32) % u32) size
    | .End => min ((size + off32) % u32) size
  if newPos ≤ size then some ({ f with pos := newPos }, newPos) else none

/-- The read loop of `ReadFile`: copy one chunk per sector from the disk to
the output buffer, advancing `file.pos`. -/
def readLoopAux (d : DiskData) (size : Nat) (lbas : Nat → Nat) :
    Nat → Nat → (Nat → Nat) → Nat → (Nat → Nat) × Nat × Nat
  | 0, readSize, buf, pos => (buf, readSize, pos)
  | fuel + 1, readSize, buf, pos =>
    if readSize < size then
      let sectorIdx := pos / sector_size
      let offInSec := pos % sector_size
      let leftInSec := sector_size - offInSec
      let chunk := min (size - readSize) leftInSec
      let sec := d.readSector (lbas sectorIdx)
      let buf' : Nat → Nat := fun k =>
        if readSize ≤ k ∧ k < readSize + chunk then sec (offInSec + (k - readSize)) else buf k
      readLoopAux d size lbas fuel (readSize + chunk) buf' ((pos + chunk) % u32)
    else (buf, readSize, pos)

def readLoop (d : DiskData) (size : Nat) (lbas : Nat → Nat) (readSize : Nat)
    (buf : Nat → Nat) (pos : Nat) : (Nat → Nat) × Nat × Nat :=
  readLoopAux d size lbas (size - readSize) readSize buf pos

/-- `Disk::FilePart::ReadFile(const fs::File&, buf, size)`: clamp the size
against the remaining bytes, collect the covered block LBAs (with the
debug assertions of each branch), then run the read loop.  Returns the
output buffer, the byte count read and the advanced file. -/
def ReadFile (p : FsPart) (f : FsFile) (size0 : Nat) : Option ((Nat → Nat) × Nat × FsFile) :=
  let nd := f.inode
  if nd.size < f.pos then none
  else
    let size := min size0 (nd.size - f.pos)
    if size = 0 then some (fun _ => 0, 0, f)
    else
      let lbas0 : Nat → Nat := fun _ => 0
      let startIdx := f.pos / sector_size
      let endIdx := (f.pos + size) / sector_size
      if ¬ (startIdx ≤ endIdx ∧ endIdx < sector_count_per_inode) then none
      else
        let collected : Option (Nat → Nat) :=
          if startIdx = endIdx then
            if endIdx < direct_block_count then
              if nd.GetDirectLba startIdx = 0 then none
              else some (fun j => if j = startIdx then nd.GetDirectLba startIdx else lbas0 j)
            else
              if nd.GetIndirectTabLba = 0 then none
              else some (fun j =>
                if direct_block_count ≤ j ∧ j < sector_count_per_inode then
                  readLE32 (p.disk.readSector nd.GetIndirectTabLba) (j - direct_block_count)
                else lbas0 j)
          else
            if endIdx < direct_block_count then
              if (List.range (endIdx + 1)).all
                  (fun i => decide (i < startIdx ∨ nd.GetDirectLba i ≠ 0)) then
                some (fun j => if startIdx ≤ j ∧ j ≤ endIdx then nd.GetDirectLba j else lbas0 j)
              else none
            else if startIdx < direct_block_count then
              if (List.range direct_block_count).all
                  (fun i => decide (i < startIdx ∨ nd.GetDirectLba i ≠ 0)) then
                if nd.GetIndirectTabLba = 0 then none
                else some (fun j =>
                  if startIdx ≤ j ∧ j < direct_block_count then nd.GetDirectLba j
                  else if direct_block_count ≤ j ∧ j < sector_count_per_inode then
                    readLE32 (p.disk.readSector nd.GetIndirectTabLba) (j - direct_block_count)
                  else lbas0 j)
              else none
            else
              if nd.GetIndirectTabLba = 0 then none
              else some (fun j =>
                if direct_block_count ≤ j ∧ j < sector_count_per_inode then
                  readLE32 (p.disk.readSector nd.GetIndirectTabLba) (j - direct_block_count)
                else lbas0 j)
        match collected with
        | none => none
        | some lbas =>
          let r := readLoop p.disk size lbas 0 (fun _ => 0) f.pos
          some (r.1, r.2.1, { f with pos := r.2.2 })

/-! ## Path search (`Disk::FilePart::SearchPath`)

Directories are viewed at entry granularity: `entriesAt` is the result of
`LoadDirEntries` on a data sector, and `indirectAt` the 128 LBAs stored in
an indirect-table sector; `inodes` is the on-disk inode array as read by
`OpenNode`.  A path is given as its list of component names, which is what
`Path::Visit` hands to the visitor for an absolute path.  An open directory
handle is its inode index plus whether it is the static root-directory
object, because `Directory::Close` is a no-op exactly on the root. -/

inductive FileType where
  | Unknown
  | Regular
  | Directory
deriving DecidableEq, Repr

/-- `fs::DirEntry`: `{type, name, inode_idx}`. -/
structure DirEntry where
  type : FileType
  name : String
  inodeIdx : Nat
deriving DecidableEq, Repr

/-- `fs::root_inode_idx`. -/
def root_inode_idx : Nat := 0

/-- The directory-level view of a mounted partition. -/
structure DirPart where
  inodes : Nat → IdxNode
  entriesAt : Nat → List DirEntry
  indirectAt : Nat → List Nat
  openInodes : List (Nat × Nat)

/-- `Disk::FilePart::OpenNode`: asserts `idx < max_file_count_per_part`;
bump the open count when the node is already open, otherwise read it and
append it to the open list with one reference. -/
def DirPart.OpenNode (p : DirPart) (idx : Nat) : Option DirPart :=
  if idx < max_file_count_per_part then
    match List.find? (fun e => decide (e.1 = idx)) p.openInodes with
    | some _ =>
      some { p with openInodes :=
        p.openInodes.map (fun e => if e.1 = idx then (e.1, e.2 + 1) else e) }
    | none => some { p with openInodes := p.openInodes ++ [(idx, 1)] }
  else none

/-- `fs::IdxNode::Close`: decrement the open count, removing the node from
the open list when it reaches zero. -/
def DirPart.CloseNode (p : DirPart) (idx : Nat) : Option DirPart :=
  match List.find? (fun e => decide (e.1 = idx)) p.openInodes with
  | none => none
  | some e =>
    if e.2 = 1 then
      some { p with openInodes := p.openInodes.filter (fun e' => decide (e'.1 ≠ idx)) }
    else
      some { p with openInodes :=
        p.openInodes.map (fun e' => if e'.1 = idx then (e'.1, e'.2 - 1) else e') }

/-- `fs::Directory::Close`: a no-op on the static root directory, otherwise
close the inode (the heap `Directory` object itself has no model state). -/
def DirPart.CloseDir (p : DirPart) (isRoot : Bool) (idx : Nat) : Option DirPart :=
  if isRoot then some p else p.CloseNode idx

/-- `Disk::FilePart::OpenDir(inode_idx)`: open the inode and hand back a
fresh (non-root) directory handle for it. -/
def DirPart.OpenDirByIdx (p : DirPart) (idx : Nat) : Option DirPart :=
  p.OpenNode idx

/-- `LoadNodeLbas` at directory granularity: the twelve direct LBAs
followed by the 128 indirect LBAs when an indirect table exists. -/
def dirLoadNodeLbas (p : DirPart) (nd : IdxNode) : List Nat :=
  (List.range direct_block_count).map nd.GetDirectLba ++
    (if nd.GetIndirectTabLba ≠ 0 then p.indirectAt nd.GetIndirectTabLba
      else List.replicate 128 0)

/-- `Disk::FilePart::SearchDirEntry`: scan the directory's block sectors in
order, skipping empty slots, for the first entry with the given name. -/
def DirPart.SearchDirEntry (p : DirPart) (nd : IdxNode) (name : String) : Option DirEntry :=
  (dirLoadNodeLbas p nd).findSome? (fun lba =>
    if lba = 0 then none else (p.entriesAt lba).find? (fun e => e.name == name))

/-- `Disk::FilePart::PathSearchRecord`; `parentIsRoot`/`parentIdx` stand
for the `parent` directory pointer. -/
structure PathSearchRecord where
  searched : List String
  parentIsRoot : Bool
  parentIdx : Nat
  type : FileType
  inodeIdx : Nat
deriving DecidableEq, Repr

/-- The visitor loop of `SearchPath` over the path components, carrying the
`VisitorArg` field `parent_inode_idx`.  In the directory case the source
closes the previous parent and then opens the directory at
`record.inode_idx` (not the found entry's index) as the next parent. -/
def searchVisitLoop (p : DirPart) (rec0 : PathSearchRecord) (parentInodeIdx : Nat) :
    List String → Option (DirPart × PathSearchRecord × Nat)
  | [] => some (p, rec0, parentInodeIdx)
  | name :: rest =>
    let rec1 := { rec0 with searched := rec0.searched ++ [name] }
    match p.SearchDirEntry (p.inodes rec1.parentIdx) name with
    | some entry =>
      match entry.type with
      | .Directory =>
        let pIdx := (p.inodes rec1.parentIdx).idx
        let rec2 := { rec1 with type := .Directory }
        match p.CloseDir rec2.parentIsRoot rec2.parentIdx with
        | none => none
        | some p1 =>
          match p1.OpenDirByIdx rec2.inodeIdx with
          | none => none
          | some p2 =>
            searchVisitLoop p2 { rec2 with parentIsRoot := false, parentIdx := rec2.inodeIdx }
              pIdx rest
      | .Regular =>
        some (p, { rec1 with type := .Regular, inodeIdx := entry.inodeIdx }, parentInodeIdx)
      | .Unknown => none
    | none => some (p, { rec1 with type := .Unknown }, parentInodeIdx)

/-- `Disk::FilePart::SearchPath` on an absolute path given by its component
list: the root-directory shortcut, the visitor walk, and the final
reopening of the direct parent when the target is a directory. -/
def DirPart.SearchPath (p : DirPart) (comps : List String) (rec0 : PathSearchRecord) :
    Option (DirPart × PathSearchRecord × Bool) :=
  if comps.isEmpty then
    let recRoot : PathSearchRecord :=
      ⟨[], true, root_inode_idx, .Directory, root_inode_idx⟩
    some (p, recRoot, true)
  else
    let rec1 := { rec0 with type := .Unknown, parentIsRoot := true, parentIdx := root_inode_idx }
    match searchVisitLoop p rec1 root_inode_idx comps with
    | none => none
    | some (p1, rec2, parentInodeIdx) =>
      if rec2.type ≠ .Unknown then
        if rec2.type = .Directory then
          match p1.CloseDir rec2.parentIsRoot rec2.parentIdx with
          | none => none
          | some p2 =>
            match p2.OpenDirByIdx parentInodeIdx with
            | none => none
            | some p3 =>
              some (p3, { rec2 with parentIsRoot := false, parentIdx := parentInodeIdx }, true)
        else some (p1, rec2, true)
      else some (p1, rec2, false)

/-! ## The counting semaphore (`include/kernel/thread/sync.h`) -/

/-- `sync::Semaphore<max>`: the value, the capacity and the wait list of
thread identifiers (front first). -/
structure Semaphore where
  val : Nat
  maxv : Nat
  waiters : List Nat
deriving DecidableEq, Repr

/-- `Semaphore::Increase`: under an `IntrGuard` (no observable effect in
this sequential model), assert `val_ <= max`; when `val_ != max`, pop and
unblock the head waiter if any, then increment.  Returns the new state and
the unblocked thread, if one was woken. -/
def Semaphore.Increase (s : Semaphore) : Option (Semaphore × Option Nat) :=
  if s.val ≤ s.maxv then
    if s.val ≠ s.maxv then
      match s.waiters with
      | t :: rest => some ({ s with val := s.val + 1, waiters := rest }, some t)
      | [] => some ({ s with val := s.val + 1 }, none)
    else some (s, none)
  else none

/-! ## The pool types of the public memory interface -/

/-- `mem::PoolType`; the model state `MemState` is the state of the pools
selected by the given type. -/
inductive PoolType where
  | Kernel
  | User
deriving DecidableEq, Repr

/-- `mem::Free(type, vr_base)`: dispatch to the selected pools' state. -/
def MemFree (_ty : PoolType) (st : MemState) (vrBase : Nat) : Option MemState :=
  st.Free vrBase

/-! ## Concrete scenario states -/

/-- The root-directory inode of the `C1` scenario: one data sector at
LBA 200 and two entries besides `.` and `..`. -/
def c1RootInode : IdxNode := ⟨0, 84, fun i => if i = 0 then 200 else 0, 0⟩

/-- The inode of the directory `a` (index 1) of the `C1` scenario. -/
def c1AInode : IdxNode := ⟨1, 84, fun i => if i = 0 then 201 else 0, 0⟩

/-- A mounted partition whose root contains a subdirectory `a`, which in
turn contains a regular file `b`. -/
def c1Part : DirPart :=
  ⟨fun i => if i = 0 then c1RootInode else if i = 1 then c1AInode else ⟨i, 0, fun _ => 0, 0⟩,
   fun lba =>
     if lba = 200 then
       [⟨.Directory, ".", 0⟩, ⟨.Directory, "..", 0⟩, ⟨.Directory, "a", 1⟩]
     else if lba = 201 then
       [⟨.Directory, ".", 1⟩, ⟨.Directory, "..", 0⟩, ⟨.Regular, "b", 2⟩]
     else [],
   fun _ => [],
   [(0, 1)]⟩

/-- A default-constructed `PathSearchRecord`: empty prefix, null parent,
`Unknown` type, `inode_idx = npos`. -/
def c1Record0 : PathSearchRecord := ⟨[], false, 0, .Unknown, npos⟩

/-- The `C2` scenario: a freshly created file (size 0, no blocks). -/
def c2Inode : IdxNode := ⟨5, 0, fun _ => 0, 0⟩

/-- The `C2` file handle opened at position 0. -/
def c2File : FsFile := ⟨c2Inode, 0⟩

/-- A small mounted partition with an all-free one-byte block bitmap and a
zeroed disk. -/
def c2Part : FsPart := ⟨fun _ => fun _ => 0, ⟨[0]⟩, 100, 3, 10, 0, 4096⟩

/-- The 512-byte payload written in the `C2` scenario. -/
def c2Data : Nat → Nat := fun i => (i + 7) % 256

/-- The full write-seek-read sequence of the `C2` round-trip law at
`n = 512`. -/
def c2Run : Option ((Nat → Nat) × Nat × FsFile) :=
  match WriteFile c2Part c2File c2Data 512 with
  | none => none
  | some (p1, f1, _w) =>
    match SeekFile f1 0 .Begin with
    | none => none
    | some (f2, _pos) => ReadFile p1 f2 512

/-- The concrete outcome of writing 512 bytes to the fresh `C2` file:
partition, file handle and byte count returned by `WriteFile`. -/
def c3Out : FsPart × FsFile × Nat :=
  (WriteFile c2Part c2File c2Data 512).getD (c2Part, c2File, 0)

/-- A partition like the `C2` one but with a 144-bit all-free block bitmap:
room for the 140 data blocks plus the indirect table of an exact-fit
140-sector write. -/
def c4wPart : FsPart := ⟨fun _ => fun _ => 0, ⟨List.replicate 18 0⟩, 100, 3, 10, 0, 4096⟩

/-- The `C7` failing scenario: the kernel physical pool is exhausted (its
one-byte bitmap full, free count 0) while the virtual-address pool has
eight free pages. -/
def c7State : MemState :=
  ⟨⟨0x200000, ⟨[255]⟩, 0⟩, ⟨krnl_heap_base, ⟨[0]⟩, 8⟩, [], [], initDescs⟩

/-- The `C9` scenario: a fresh kernel heap with no arenas, empty
descriptor free lists, and all-free eight-page pools. -/
def c9State : MemState :=
  ⟨⟨0x200000, ⟨[0]⟩, 8⟩, ⟨krnl_heap_base, ⟨[0]⟩, 8⟩, [], [], initDescs⟩

/-- The `C9` allocator-stress sequence
`a = Allocate(100); b = Allocate(300); Free(a); c = Allocate(100)`,
returning `a`, `c` and the final state. -/
def c9Run : Option (Nat × Nat × MemState) :=
  match c9State.Allocate 100 with
  | none => none
  | some (st1, a) =>
    match st1.Allocate 300 with
    | none => none
    | some (st2, _b) =>
      match st2.Free a with
      | none => none
      | some st3 =>
        match st3.Allocate 100 with
        | none => none
        | some (st4, c) => some (a, c, st4)

/-- The `C4` overflow scenario: an open one-byte file. -/
def c4File : FsFile := ⟨⟨6, 1, fun i => if i = 0 then 100 else 0, 0⟩, 0⟩

/-- The `C5` counterexample file: size 1, position 0. -/
def c5File : FsFile := ⟨⟨5, 1, fun _ => 0, 0⟩, 0⟩

/-- Modelled from the spec: the position the seek claim predicts,
`clamp(b + offset, 0, size)` over the integers. -/
def seekClaimPos (b offset : Int) (size : Nat) : Int :=
  max (min (b + offset) (size : Int)) 0

/-- The seek base of each origin: 0, the current position, or the size. -/
def seekBase (f : FsFile) : SeekOrigin → Nat
  | .Begin => 0
  | .Curr => f.pos
  | .End => f.inode.size

/-- The corrected description of `SeekFile`'s result: the integer target
`base + offset` clamped above by the size, except that a negative target
wraps around the unsigned arithmetic and is clamped to the size instead of
to zero. -/
def seekAmendedPos (f : FsFile) (offset : Int) (origin : SeekOrigin) : Nat :=
  if (seekBase f origin : Int) + offset < 0 then f.inode.size
  else min ((seekBase f origin : Int) + offset).toNat f.inode.size

/-- The file-state invariant maintained by the file system for every open
file: the size is bounded by the 140-block maximum, direct LBAs are
non-zero exactly below the used sector count, the indirect table exists
exactly when more than twelve sectors are used and its on-disk entries
beyond the used sectors are zero; the partition's block bitmap is
well-formed and the node's on-disk slot is inside the partition. -/
def FileInv (p : FsPart) (nd : IdxNode) : Prop :=
  nd.size ≤ sector_count_per_inode * sector_size ∧
  (∀ i, i < min (RoundUpDivide nd.size sector_size) direct_block_count →
    nd.GetDirectLba i ≠ 0) ∧
  (∀ i, i < direct_block_count → RoundUpDivide nd.size sector_size ≤ i →
    nd.GetDirectLba i = 0) ∧
  (nd.GetIndirectTabLba ≠ 0 ↔ direct_block_count < RoundUpDivide nd.size sector_size) ∧
  (direct_block_count < RoundUpDivide nd.size sector_size →
    ∀ j, j < sector_count_per_inode → RoundUpDivide nd.size sector_size ≤ j →
      readLE32 (p.disk.readSector nd.GetIndirectTabLba) (j - direct_block_count) = 0) ∧
  p.blockBitmap.Wf ∧ p.blockBitmap.capacity + p.dataStartLba ≤ npos ∧ 0 < p.dataStartLba ∧
  nd.idx < max_file_count_per_part ∧
  p.inodesStartLba + nd.idx * sizeof_IdxNode / sector_size < p.partStartLba + p.partSectorCount

instance (p : FsPart) (nd : IdxNode) : Decidable (FileInv p nd) := by
  unfold FileInv
  infer_instance

/-- The number of fresh blocks a growing write needs: one per new sector,
plus the indirect table when the write first crosses the direct range. -/
def blocksNeeded (currSize n : Nat) : Nat :=
  let currSC := RoundUpDivide currSize sector_size
  let newSC := RoundUpDivide (currSize + n) sector_size
  (newSC - currSC) +
    (if currSC ≤ direct_block_count ∧ direct_block_count < newSC then 1 else 0)

/-- A concrete bitmap used to witness the `C6` theorem: byte `0b00000110`. -/
def c6bm : Bitmap := ⟨[6]⟩

/-! ## Lemmas and theorems -/

namespace Bitmap

lemma capacity_le_of_getD {bm : Bitmap} {i : Nat} (h : bm.capacity ≤ i) :
    bm.bytes.length ≤ i / 8 := by
  unfold capacity byteLen at h
  exact (Nat.le_div_iff_mul_le (by omega)).mpr h

lemma IsAlloc_out_of_range {bm : Bitmap} {i : Nat} (h : bm.capacity ≤ i) :
    bm.IsAlloc i = false := by
  unfold IsAlloc
  rw [List.getD_eq_default _ _ (capacity_le_of_getD h)]
  exact Nat.zero_testBit _

lemma div_lt_byteLen {bm : Bitmap} {i : Nat} (h : i < bm.capacity) :
    i / 8 < bm.bytes.length := by
  unfold capacity byteLen at h
  exact Nat.div_lt_of_lt_mul (by omega)

lemma testBit_byte_high {b j : Nat} (hb : b < 256) (hj : 8 ≤ j) :
    b.testBit j = false := by
  refine Nat.testBit_eq_false_of_lt (lt_of_lt_of_le hb ?_)
  calc (256 : Nat) = 2 ^ 8 := by norm_num
  _ ≤ 2 ^ j := Nat.pow_le_pow_right (by omega) hj

lemma testBit_mask255 {k j : Nat} (hk : k < 8) :
    (255 - 2 ^ k).testBit j = (decide (j < 8) && !decide (j = k)) := by
  rcases Nat.lt_or_ge j 8 with hj | hj
  · have h : ∀ k' < 8, ∀ j' < 8,
        (255 - 2 ^ k').testBit j' = (decide (j' < 8) && !decide (j' = k')) := by decide
    exact h k hk j hj
  · have h1 : 255 - 2 ^ k < 256 := by
      have := Nat.sub_le 255 (2 ^ k)
      omega
    rw [testBit_byte_high h1 hj]
    simp [Nat.not_lt.mpr hj]

lemma byte_lt {bm : Bitmap} (hwf : bm.Wf) (i : Nat) : bm.bytes.getD i 0 < 256 := by
  by_cases h : i < bm.bytes.length
  · rw [List.getD_eq_getElem?_getD, List.getElem?_eq_getElem h, Option.getD_some]
    exact hwf _ (List.getElem_mem h)
  · rw [List.getD_eq_default _ _ (by omega)]
    omega

lemma capacity_SetBit (bm : Bitmap) (idx : Nat) (v : Bool) :
    (bm.SetBit idx v).capacity = bm.capacity := by
  unfold SetBit capacity byteLen
  simp

lemma Wf_SetBit {bm : Bitmap} (hwf : bm.Wf) (idx : Nat) (v : Bool) :
    (bm.SetBit idx v).Wf := by
  have h256 : (256 : Nat) = 2 ^ 8 := by norm_num
  unfold SetBit Wf
  intro b hb
  simp only at hb
  rcases List.mem_or_eq_of_mem_set hb with h | h
  · exact hwf b h
  · subst h
    match v with
    | true =>
      rw [h256]
      refine Nat.or_lt_two_pow (h256 ▸ byte_lt hwf _) ?_
      exact Nat.pow_lt_pow_right (by omega) (Nat.mod_lt _ (by omega))
    | false =>
      have hle : bm.bytes.getD (idx / 8) 0 &&& (255 - 2 ^ (idx % 8)) ≤ bm.bytes.getD (idx / 8) 0 :=
        Nat.and_le_left
      exact lt_of_le_of_lt hle (byte_lt hwf _)

lemma IsAlloc_SetBit_true {bm : Bitmap} {idx : Nat} (hidx : idx < bm.capacity) (i : Nat) :
    (bm.SetBit idx true).IsAlloc i = (bm.IsAlloc i || decide (i = idx)) := by
  have hlen : idx / 8 < bm.bytes.length := div_lt_byteLen hidx
  unfold SetBit IsAlloc
  simp only
  by_cases hdiv : i / 8 = idx / 8
  · rw [hdiv]
    rw [List.getD_eq_getElem?_getD (bm.bytes.set _ _), List.getElem?_set, if_pos rfl,
      if_pos hlen]
    simp only [Option.getD_some, Nat.testBit_or]
    by_cases hi : i = idx
    · subst hi
      simp [Nat.testBit_two_pow_self]
    · have hmod : idx % 8 ≠ i % 8 := by
        intro hmod
        exact hi (by omega)
      rw [Nat.testBit_two_pow_of_ne hmod]
      simp [hi]
  · have hne : i ≠ idx := fun h => hdiv (by rw [h])
    rw [List.getD_eq_getElem?_getD (bm.bytes.set _ _), List.getElem?_set,
      if_neg (fun h => hdiv h.symm), ← List.getD_eq_getElem?_getD]
    simp [hne]

lemma IsAlloc_SetBit_false {bm : Bitmap} (hwf : bm.Wf) {idx : Nat} (hidx : idx < bm.capacity)
    (i : Nat) :
    (bm.SetBit idx false).IsAlloc i = (bm.IsAlloc i && !decide (i = idx)) := by
  have hlen : idx / 8 < bm.bytes.length := div_lt_byteLen hidx
  have hbyte : bm.bytes.getD (idx / 8) 0 < 256 := byte_lt hwf _
  unfold SetBit IsAlloc
  simp only
  by_cases hdiv : i / 8 = idx / 8
  · rw [hdiv]
    rw [List.getD_eq_getElem?_getD (bm.bytes.set _ _), List.getElem?_set, if_pos rfl,
      if_pos hlen]
    simp only [Option.getD_some, Nat.testBit_and, testBit_mask255 (Nat.mod_lt idx (by omega))]
    by_cases hi : i = idx
    · subst hi
      simp
    · have hmod : ¬ i % 8 = idx % 8 := by
        intro hmod
        exact hi (by omega)
      have hm8 : i % 8 < 8 := Nat.mod_lt _ (by omega)
      simp [hmod, hi, hm8]
  · have hne : i ≠ idx := fun h => hdiv (by rw [h])
    rw [List.getD_eq_getElem?_getD (bm.bytes.set _ _), List.getElem?_set,
      if_neg (fun h => hdiv h.symm), ← List.getD_eq_getElem?_getD]
    simp [hne]

lemma capacity_Set (bm : Bitmap) (begin0 : Nat) :
    ∀ n, (bm.Set begin0 n).capacity = bm.capacity
  | 0 => rfl
  | n + 1 => by rw [Set, capacity_SetBit, capacity_Set bm begin0 n]

lemma capacity_Reset (bm : Bitmap) (begin0 : Nat) :
    ∀ n, (bm.Reset begin0 n).capacity = bm.capacity
  | 0 => rfl
  | n + 1 => by rw [Reset, capacity_SetBit, capacity_Reset bm begin0 n]

lemma Wf_Set {bm : Bitmap} (hwf : bm.Wf) (begin0 : Nat) :
    ∀ n, (bm.Set begin0 n).Wf
  | 0 => hwf
  | n + 1 => Wf_SetBit (Wf_Set hwf begin0 n) _ _

lemma Wf_Reset {bm : Bitmap} (hwf : bm.Wf) (begin0 : Nat) :
    ∀ n, (bm.Reset begin0 n).Wf
  | 0 => hwf
  | n + 1 => Wf_SetBit (Wf_Reset hwf begin0 n) _ _

lemma IsAlloc_Set {bm : Bitmap} {begin0 : Nat} :
    ∀ n, begin0 + n ≤ bm.capacity → ∀ i,
      (bm.Set begin0 n).IsAlloc i =
        (bm.IsAlloc i || (decide (begin0 ≤ i) && decide (i < begin0 + n)))
  | 0, _h, i => by
    simp only [Set]
    cases ha : bm.IsAlloc i <;> simp [ha] <;> omega
  | n + 1, h, i => by
    rw [Set, IsAlloc_SetBit_true (by rw [capacity_Set]; omega), IsAlloc_Set n (by omega) i]
    by_cases ha : bm.IsAlloc i
    · simp [ha]
    · simp only [ha, Bool.false_or]
      by_cases h1 : begin0 ≤ i <;> by_cases h2 : i < begin0 + n <;>
        by_cases h3 : i = n + begin0 <;> simp [h1, h2, h3] <;> omega

lemma IsAlloc_Reset {bm : Bitmap} (hwf : bm.Wf) {begin0 : Nat} :
    ∀ n, begin0 + n ≤ bm.capacity → ∀ i,
      (bm.Reset begin0 n).IsAlloc i =
        (bm.IsAlloc i && !(decide (begin0 ≤ i) && decide (i < begin0 + n)))
  | 0, _h, i => by
    simp only [Reset]
    cases ha : bm.IsAlloc i <;> simp [ha] <;> omega
  | n + 1, h, i => by
    rw [Reset, IsAlloc_SetBit_false (Wf_Reset hwf begin0 n) (by rw [capacity_Reset]; omega),
      IsAlloc_Reset hwf n (by omega) i]
    by_cases ha : bm.IsAlloc i
    · simp only [ha, Bool.true_and]
      by_cases h1 : begin0 ≤ i <;> by_cases h2 : i < begin0 + n <;>
        by_cases h3 : i = n + begin0 <;> simp [h1, h2, h3] <;> omega
    · simp [ha]

lemma firstClearBitFromAux_spec (b : Nat) :
    ∀ fuel j0, 8 - j0 ≤ fuel → j0 ≤ 8 →
      j0 ≤ firstClearBitFromAux b fuel j0 ∧ firstClearBitFromAux b fuel j0 ≤ 8 ∧
      (firstClearBitFromAux b fuel j0 < 8 →
        b.testBit (firstClearBitFromAux b fuel j0) = false) ∧
      (∀ j, j0 ≤ j → j < firstClearBitFromAux b fuel j0 → b.testBit j = true) := by
  intro fuel
  induction fuel with
  | zero =>
    intro j0 h1 h2
    have hj0 : j0 = 8 := by omega
    subst hj0
    simp only [firstClearBitFromAux]
    exact ⟨le_refl _, le_refl _, by omega, fun j hj1 hj2 => by omega⟩
  | succ n ih =>
    intro j0 h1 h2
    simp only [firstClearBitFromAux]
    by_cases hj : j0 < 8
    · rw [if_pos hj]
      by_cases ht : b.testBit j0
      · rw [if_pos ht]
        obtain ⟨ha, hb', hcl, hall⟩ := ih (j0 + 1) (by omega) (by omega)
        refine ⟨by omega, hb', hcl, fun j hj1 hj2 => ?_⟩
        rcases Nat.eq_or_lt_of_le hj1 with he | hlt
        · rw [← he]; exact ht
        · exact hall j hlt hj2
      · rw [if_neg ht]
        exact ⟨le_refl _, by omega, fun _ => Bool.eq_false_iff.mpr ht,
          fun j hj1 hj2 => by omega⟩
    · rw [if_neg hj]
      exact ⟨by omega, le_refl _, by omega, fun j hj1 hj2 => by omega⟩

lemma firstClearBitFrom_spec (b : Nat) (j0 : Nat) (h2 : j0 ≤ 8) :
    j0 ≤ firstClearBitFrom b j0 ∧ firstClearBitFrom b j0 ≤ 8 ∧
    (firstClearBitFrom b j0 < 8 → b.testBit (firstClearBitFrom b j0) = false) ∧
    (∀ j, j0 ≤ j → j < firstClearBitFrom b j0 → b.testBit j = true) :=
  firstClearBitFromAux_spec b (8 - j0) j0 (le_refl _) h2

lemma testBit_255 (i : Nat) : (255 : Nat).testBit i = decide (i < 8) := by
  have h : (255 : Nat) = 2 ^ 8 - 1 := by norm_num
  rw [h, Nat.testBit_two_pow_sub_one]

lemma firstClearBitFrom_lt_8 {b : Nat} (hb : b < 256) (hne : b ≠ 255) :
    firstClearBitFrom b 0 < 8 := by
  by_contra h
  obtain ⟨_, hle, _, hall⟩ := firstClearBitFrom_spec b 0 (by omega)
  apply hne
  apply Nat.eq_of_testBit_eq
  intro i
  by_cases hi : i < 8
  · rw [hall i (by omega) (by omega), testBit_255, decide_eq_true hi]
  · rw [testBit_byte_high hb (by omega), testBit_byte_high (by norm_num) (by omega)]

lemma fnfb_le (l : List Nat) : firstNonFullByte l ≤ l.length := by
  induction l with
  | nil => simp [firstNonFullByte]
  | cons b rest ih =>
    rw [firstNonFullByte]
    by_cases hb : b = 255
    · rw [if_pos hb]
      simp only [List.length_cons]
      omega
    · rw [if_neg hb]
      simp

lemma fnfb_before (l : List Nat) : ∀ k, k < firstNonFullByte l → l.getD k 0 = 255 := by
  induction l with
  | nil => intro k hk; simp [firstNonFullByte] at hk
  | cons b rest ih =>
    intro k hk
    rw [firstNonFullByte] at hk
    split at hk
    · match k with
      | 0 => simpa using (by assumption : b = 255)
      | k + 1 => exact ih k (by omega)
    · omega

lemma fnfb_getD_ne (l : List Nat) (h : firstNonFullByte l ≠ l.length) :
    l.getD (firstNonFullByte l) 0 ≠ 255 := by
  induction l with
  | nil => simp [firstNonFullByte] at h
  | cons b rest ih =>
    rw [firstNonFullByte]
    rw [firstNonFullByte] at h
    split
    · rename_i hb
      simp only [List.getD_cons_succ]
      refine ih ?_
      rw [if_pos hb] at h
      simp only [List.length_cons] at h
      omega
    · simpa using (by assumption : ¬ b = 255)

lemma allocScan_end_noRun (bm : Bitmap) {count i found : Nat} (hfound : found < count)
    (hcap : bm.capacity ≤ i)
    (h5 : ∀ s, s < i - found → ¬(s + count ≤ bm.capacity ∧ bm.FreeRun s count)) :
    ¬ bm.HasRun count := by
  rintro ⟨s, hs1, hs2⟩
  by_cases hscmp : s < i - found
  · exact h5 s hscmp ⟨hs1, hs2⟩
  · omega

lemma allocScan_spec (bm : Bitmap) (count : Nat) (hc : 0 < count) :
    ∀ fuel i found, bm.capacity - i = fuel → found ≤ i → found < count →
      (∀ j, i - found ≤ j → j < i → bm.IsAlloc j = false) →
      (∀ s, s < i - found → ¬(s + count ≤ bm.capacity ∧ bm.FreeRun s count)) →
      match allocScanAux bm count fuel i found with
      | some b => b + count ≤ bm.capacity ∧ bm.FreeRun b count ∧
          (∀ s, s < b → ¬(s + count ≤ bm.capacity ∧ bm.FreeRun s count))
      | none => ¬ bm.HasRun count := by
  intro fuel
  induction fuel with
  | zero =>
    intro i found h1 h2 h3 _h4 h5
    simp only [allocScanAux]
    exact allocScan_end_noRun bm h3 (by omega) h5
  | succ n ih =>
    intro i found h1 h2 h3 h4 h5
    have hcap : i < bm.capacity := by omega
    simp only [allocScanAux]
    by_cases hbit : bm.IsAlloc i
    · rw [if_pos hbit]
      refine ih (i + 1) 0 (by omega) (by omega) hc (fun j hj1 hj2 => by omega) ?_
      intro s hs
      by_cases hscmp : s < i - found
      · exact h5 s hscmp
      · rintro ⟨hr1, hr2⟩
        have hwin : i < s + count := by omega
        have := hr2 (i - s) (by omega)
        rw [Nat.add_sub_cancel' (by omega)] at this
        rw [hbit] at this
        exact Bool.true_eq_false.mp this
    · rw [if_neg hbit]
      by_cases hfc : found + 1 = count
      · rw [if_pos hfc]
        have hbeg : i + 1 - count = i - found := by omega
        rw [hbeg]
        refine ⟨by omega, fun j hj => ?_, h5⟩
        have hrange : i - found + j ≤ i := by omega
        rcases Nat.eq_or_lt_of_le hrange with he | hlt
        · rw [he]; exact Bool.eq_false_iff.mpr hbit
        · exact h4 (i - found + j) (by omega) hlt
      · rw [if_neg hfc]
        refine ih (i + 1) (found + 1) (by omega) (by omega) (by omega) ?_ ?_
        · intro j hj1 hj2
          rcases Nat.lt_or_ge j i with hlt | hge
          · exact h4 j (by omega) hlt
          · have hji : j = i := by omega
            rw [hji]; exact Bool.eq_false_iff.mpr hbit
        · intro s hs
          exact h5 s (by omega)

lemma before_start_alloc {bm : Bitmap} (hwf : bm.Wf)
    (hne : firstNonFullByte bm.bytes ≠ bm.byteLen) :
    ∀ i, i < firstNonFullByte bm.bytes * 8 +
        firstClearBitFrom (bm.bytes.getD (firstNonFullByte bm.bytes) 0) 0 →
      bm.IsAlloc i = true := by
  intro i hi
  set bi := firstNonFullByte bm.bytes with hbi
  obtain ⟨_, hle8, _, hall⟩ :=
    firstClearBitFrom_spec (bm.bytes.getD bi 0) 0 (by omega)
  unfold IsAlloc
  rcases Nat.lt_or_ge (i / 8) bi with hlt | hge
  · rw [fnfb_before bm.bytes (i / 8) hlt, testBit_255, decide_eq_true (Nat.mod_lt _ (by omega))]
  · have h8 : 8 * (i / 8) + i % 8 = i := Nat.div_add_mod i 8
    have hm : i % 8 < 8 := Nat.mod_lt _ (by omega)
    have hdiv : i / 8 = bi := by omega
    rw [hdiv]
    apply hall
    · omega
    · omega

/-- Full functional specification of `Bitmap::Alloc`: either it returns
`npos` with the bitmap unchanged and no run of `count` clear bits exists, or
it returns the start of the leftmost run of `count` clear bits and marks
exactly those bits allocated. -/
theorem Alloc_spec {bm : Bitmap} (hwf : bm.Wf) {count : Nat} (hc : 0 < count)
    (hcap : bm.capacity ≤ npos) :
    ((bm.Alloc count).2 = npos → (bm.Alloc count).1 = bm ∧ ¬ bm.HasRun count) ∧
    ((bm.Alloc count).2 ≠ npos →
      (bm.Alloc count).2 + count ≤ bm.capacity ∧ bm.FreeRun (bm.Alloc count).2 count ∧
      (∀ s, s < (bm.Alloc count).2 → ¬(s + count ≤ bm.capacity ∧ bm.FreeRun s count)) ∧
      ∀ i, (bm.Alloc count).1.IsAlloc i =
        (bm.IsAlloc i ||
          (decide ((bm.Alloc count).2 ≤ i) && decide (i < (bm.Alloc count).2 + count)))) := by
  unfold Alloc
  by_cases hfull : firstNonFullByte bm.bytes = bm.byteLen
  · rw [if_pos hfull]
    refine ⟨fun _ => ⟨rfl, ?_⟩, fun h => absurd rfl h⟩
    rintro ⟨s, hs1, hs2⟩
    have hscap : s < bm.capacity := by omega
    have hbyte : bm.bytes.getD (s / 8) 0 = 255 := by
      apply fnfb_before
      rw [hfull]
      exact div_lt_byteLen hscap
    have hzero := hs2 0 hc
    rw [Nat.add_zero] at hzero
    unfold IsAlloc at hzero
    rw [hbyte, testBit_255, decide_eq_true (Nat.mod_lt _ (by omega))] at hzero
    exact Bool.true_eq_false.mp hzero
  · rw [if_neg hfull]
    dsimp only
    have hlen : firstNonFullByte bm.bytes < bm.bytes.length :=
      lt_of_le_of_ne (fnfb_le bm.bytes) hfull
    have hbne : bm.bytes.getD (firstNonFullByte bm.bytes) 0 ≠ 255 :=
      fnfb_getD_ne bm.bytes hfull
    have hblt : bm.bytes.getD (firstNonFullByte bm.bytes) 0 < 256 := byte_lt hwf _
    have hbit8 : firstClearBitFrom (bm.bytes.getD (firstNonFullByte bm.bytes) 0) 0 < 8 :=
      firstClearBitFrom_lt_8 hblt hbne
    set start := firstNonFullByte bm.bytes * 8 +
      firstClearBitFrom (bm.bytes.getD (firstNonFullByte bm.bytes) 0) 0 with hstart
    have hstartcap : start < bm.capacity := by
      unfold capacity byteLen
      have h01 : firstNonFullByte bm.bytes + 1 ≤ bm.bytes.length := hlen
      calc start < firstNonFullByte bm.bytes * 8 + 8 := by omega
      _ ≤ bm.bytes.length * 8 := by
        have := Nat.mul_le_mul_right 8 h01
        omega
    have hscan := allocScan_spec bm count hc (bm.capacity - start) start 0 rfl (by omega) hc
      (fun j hj1 hj2 => by omega)
      (fun s hs => by
        rintro ⟨hr1, hr2⟩
        have hset := before_start_alloc hwf hfull s (by omega)
        have hzero := hr2 0 hc
        rw [Nat.add_zero] at hzero
        rw [hset] at hzero
        exact Bool.true_eq_false.mp hzero)
    have hconv : bm.allocScan count start 0 = allocScanAux bm count (bm.capacity - start) start 0 :=
      rfl
    rw [← hconv] at hscan
    cases hmatch : bm.allocScan count start 0 with
    | some begin0 =>
      rw [hmatch] at hscan
      dsimp only at hscan ⊢
      obtain ⟨hb1, hb2, hb3⟩ := hscan
      have hbeglt : begin0 < bm.capacity := by omega
      constructor
      · intro habs
        unfold npos u32 at habs hcap
        omega
      · intro _
        refine ⟨hb1, hb2, hb3, fun i => ?_⟩
        simpa using IsAlloc_Set count (by simpa using hb1) i
    | none =>
      rw [hmatch] at hscan
      dsimp only at hscan ⊢
      exact ⟨fun _ => ⟨rfl, hscan⟩, fun h => absurd rfl h⟩

end Bitmap

/-! ### The write loop and the block-collection phase -/

lemma writeLoopAux_spec (data : Nat → Nat) (size : Nat) (lbas : Nat → Nat) :
    ∀ fuel isFirst written p nd pos, size - written ≤ fuel → written ≤ size → pos < u32 →
      (writeLoopAux data size lbas fuel isFirst written p nd pos).2.2.1 = size ∧
      (writeLoopAux data size lbas fuel isFirst written p nd pos).2.2.2 =
        (pos + (size - written)) % u32 := by
  intro fuel
  induction fuel with
  | zero =>
    intro isFirst written p nd pos h1 h2 h3
    have hws : written = size := by omega
    subst hws
    simp only [writeLoopAux]
    exact ⟨by simp, by rw [Nat.sub_self, Nat.add_zero, Nat.mod_eq_of_lt h3]⟩
  | succ n ih =>
    intro isFirst written p nd pos h1 h2 h3
    simp only [writeLoopAux]
    by_cases hlt : written < size
    · rw [if_pos hlt]
      have hmod : nd.size % sector_size < sector_size :=
        Nat.mod_lt _ (by unfold sector_size; omega)
      have hch1 : 1 ≤ min (size - written) (sector_size - nd.size % sector_size) := by
        apply le_min <;> omega
      have hch2 : min (size - written) (sector_size - nd.size % sector_size) ≤ size - written :=
        min_le_left _ _
      obtain ⟨ha, hb⟩ := ih false
        (written + min (size - written) (sector_size - nd.size % sector_size)) _ _
        ((pos + min (size - written) (sector_size - nd.size % sector_size)) % u32)
        (by omega) (by omega) (Nat.mod_lt _ (by unfold u32; omega))
      refine ⟨ha, ?_⟩
      rw [hb, Nat.mod_add_mod]
      congr 1
      omega
    · rw [if_neg hlt]
      have hws : written = size := by omega
      subst hws
      exact ⟨by simp, by rw [Nat.sub_self, Nat.add_zero, Nat.mod_eq_of_lt h3]⟩

lemma allocBlockLoopAux_fields {w : Bool} {newSC : Nat} :
    ∀ fuel i p nd lbas r, allocBlockLoopAux w newSC fuel i p nd lbas = some r →
      r.2.1.size = nd.size ∧ r.2.1.idx = nd.idx := by
  intro fuel
  induction fuel with
  | zero =>
    intro i p nd lbas r h
    simp only [allocBlockLoopAux] at h
    cases h
    exact ⟨rfl, rfl⟩
  | succ n ih =>
    intro i p nd lbas r h
    simp only [allocBlockLoopAux] at h
    split at h
    · split at h
      · split at h
        · split at h
          · split at h
            · exact absurd h (by simp)
            · have hih := ih _ _ _ _ _ h
              exact hih
          · exact absurd h (by simp)
        · exact absurd h (by simp)
      · split at h
        · split at h
          · exact absurd h (by simp)
          · have hih := ih _ _ _ _ _ h
            exact hih
        · exact absurd h (by simp)
    · cases h
      exact ⟨rfl, rfl⟩

lemma writeFilePhase_proceed_fields {p : FsPart} {f : FsFile} {size : Nat} {p' : FsPart}
    {nd : IdxNode} {lbas : Nat → Nat}
    (h : writeFilePhase p f size = some (.proceed p' nd lbas)) :
    nd.size = f.inode.size ∧ nd.idx = f.inode.idx := by
  unfold writeFilePhase at h
  dsimp only at h
  by_cases h1 : (f.inode.size + size) % u32 > sector_count_per_inode * sector_size
  · rw [if_pos h1] at h
    exact WritePhase.noConfusion (Option.some.inj h)
  rw [if_neg h1] at h
  by_cases h2 : ¬ (RoundUpDivide f.inode.size sector_size ≤
      RoundUpDivide ((f.inode.size + size) % u32) sector_size ∧
      RoundUpDivide ((f.inode.size + size) % u32) sector_size ≤ sector_count_per_inode)
  · rw [if_pos h2] at h
    exact Option.noConfusion h
  rw [if_neg h2] at h
  by_cases h3 : RoundUpDivide f.inode.size sector_size =
      RoundUpDivide ((f.inode.size + size) % u32) sector_size
  · rw [if_pos h3] at h
    repeat' split at h
    all_goals try exact Option.noConfusion h
    all_goals cases h
    all_goals exact ⟨rfl, rfl⟩
  rw [if_neg h3] at h
  by_cases h4 : RoundUpDivide ((f.inode.size + size) % u32) sector_size ≤ direct_block_count
  · rw [if_pos h4] at h
    repeat' split at h
    all_goals try exact Option.noConfusion h
    all_goals try exact WritePhase.noConfusion (Option.some.inj h)
    all_goals cases h
    all_goals
      rename_i hloop
      have hf := allocBlockLoopAux_fields _ _ _ _ _ _ hloop
      exact hf
  rw [if_neg h4] at h
  by_cases h5 : RoundUpDivide f.inode.size sector_size ≤ direct_block_count
  · rw [if_pos h5] at h
    repeat' split at h
    all_goals try exact Option.noConfusion h
    all_goals try exact WritePhase.noConfusion (Option.some.inj h)
    all_goals cases h
    all_goals
      rename_i hloop
      have hf := allocBlockLoopAux_fields _ _ _ _ _ _ hloop
      exact hf
  rw [if_neg h5] at h
  repeat' split at h
  all_goals try exact Option.noConfusion h
  all_goals try exact WritePhase.noConfusion (Option.some.inj h)
  all_goals cases h
  all_goals
    rename_i hloop
    have hf := allocBlockLoopAux_fields _ _ _ _ _ _ hloop
    exact hf

lemma writeFilePhase_early_zero {p : FsPart} {f : FsFile} {size : Nat} {p1 : FsPart}
    {f1 : FsFile} {w : Nat}
    (h : writeFilePhase p f size = some (.early p1 f1 w)) : w = 0 := by
  unfold writeFilePhase at h
  dsimp only at h
  by_cases h1 : (f.inode.size + size) % u32 > sector_count_per_inode * sector_size
  · rw [if_pos h1] at h
    cases h
    rfl
  rw [if_neg h1] at h
  by_cases h2 : ¬ (RoundUpDivide f.inode.size sector_size ≤
      RoundUpDivide ((f.inode.size + size) % u32) sector_size ∧
      RoundUpDivide ((f.inode.size + size) % u32) sector_size ≤ sector_count_per_inode)
  · rw [if_pos h2] at h
    exact Option.noConfusion h
  rw [if_neg h2] at h
  by_cases h3 : RoundUpDivide f.inode.size sector_size =
      RoundUpDivide ((f.inode.size + size) % u32) sector_size
  · rw [if_pos h3] at h
    repeat' split at h
    all_goals try exact Option.noConfusion h
    all_goals try exact WritePhase.noConfusion (Option.some.inj h)
    all_goals cases h
    all_goals rfl
  rw [if_neg h3] at h
  by_cases h4 : RoundUpDivide ((f.inode.size + size) % u32) sector_size ≤ direct_block_count
  · rw [if_pos h4] at h
    repeat' split at h
    all_goals try exact Option.noConfusion h
    all_goals try exact WritePhase.noConfusion (Option.some.inj h)
    all_goals cases h
    all_goals rfl
  rw [if_neg h4] at h
  by_cases h5 : RoundUpDivide f.inode.size sector_size ≤ direct_block_count
  · rw [if_pos h5] at h
    repeat' split at h
    all_goals try exact Option.noConfusion h
    all_goals try exact WritePhase.noConfusion (Option.some.inj h)
    all_goals cases h
    all_goals rfl
  rw [if_neg h5] at h
  repeat' split at h
  all_goals try exact Option.noConfusion h
  all_goals try exact WritePhase.noConfusion (Option.some.inj h)
  all_goals cases h
  all_goals rfl

/-! ### Success conditions for block allocation and the exact-fit write -/

lemma Bitmap.hasRun_one_of_freeBits {bm : Bitmap} (h : 0 < bm.freeBits) : bm.HasRun 1 := by
  obtain ⟨i, hi⟩ := Finset.card_pos.mp h
  rw [Finset.mem_filter, Finset.mem_range] at hi
  refine ⟨i, by omega, fun j hj => ?_⟩
  have hj0 : j = 0 := by omega
  subst hj0
  simpa using hi.2

lemma Bitmap.Alloc_Wf {bm : Bitmap} (hwf : bm.Wf) (count : Nat) : (bm.Alloc count).1.Wf := by
  unfold Alloc
  dsimp only
  split
  · exact hwf
  · split
    · exact Bitmap.Wf_Set hwf _ _
    · exact hwf

lemma Bitmap.Alloc_capacity (bm : Bitmap) (count : Nat) :
    (bm.Alloc count).1.capacity = bm.capacity := by
  unfold Alloc
  dsimp only
  split
  · rfl
  · split
    · exact Bitmap.capacity_Set _ _ _
    · rfl

lemma Bitmap.freeBits_Alloc_one {bm : Bitmap} (hwf : bm.Wf) (hcap : bm.capacity ≤ npos)
    (hne : (bm.Alloc 1).2 ≠ npos) :
    (bm.Alloc 1).1.freeBits + 1 = bm.freeBits := by
  obtain ⟨h1, h2, _h3, h4⟩ := (Bitmap.Alloc_spec hwf (by decide) hcap).2 hne
  have hsfree : bm.IsAlloc (bm.Alloc 1).2 = false := by
    have := h2 0 (by decide)
    simpa using this
  have hslt : (bm.Alloc 1).2 < bm.capacity := by omega
  have hmem : (bm.Alloc 1).2 ∈
      (Finset.range bm.capacity).filter (fun i => bm.IsAlloc i = false) :=
    Finset.mem_filter.mpr ⟨Finset.mem_range.mpr hslt, hsfree⟩
  unfold freeBits
  rw [Bitmap.Alloc_capacity]
  have hset : ((Finset.range bm.capacity).filter (fun i => (bm.Alloc 1).1.IsAlloc i = false))
      = ((Finset.range bm.capacity).filter (fun i => bm.IsAlloc i = false)).erase
          (bm.Alloc 1).2 := by
    ext i
    simp only [Finset.mem_filter, Finset.mem_erase, Finset.mem_range, h4 i]
    constructor
    · rintro ⟨hir, hval⟩
      rw [Bool.or_eq_false_iff] at hval
      refine ⟨?_, hir, hval.1⟩
      intro heq
      rw [heq] at hval
      simp at hval
    · rintro ⟨hne2, hir, hfree2⟩
      refine ⟨hir, ?_⟩
      rw [Bool.or_eq_false_iff]
      refine ⟨hfree2, ?_⟩
      rcases Nat.lt_or_ge i (bm.Alloc 1).2 with hlt | hge
      · simp [Nat.not_le.mpr hlt]
      · have hni : ¬ (i < (bm.Alloc 1).2 + 1) := by omega
        simp [hni]
  rw [hset, Finset.card_erase_of_mem hmem]
  have hpos : 0 < ((Finset.range bm.capacity).filter fun i => bm.IsAlloc i = false).card :=
    Finset.card_pos.mpr ⟨_, hmem⟩
  omega

lemma FsPart.AllocBlock_success {p : FsPart} (hwf : p.blockBitmap.Wf)
    (hgeom : p.blockBitmap.capacity + p.dataStartLba ≤ npos)
    (hfree : 0 < p.blockBitmap.freeBits) :
    p.AllocBlock.2 ≠ npos ∧ p.dataStartLba ≤ p.AllocBlock.2 ∧
    p.AllocBlock.1.blockBitmap.Wf ∧
    p.AllocBlock.1.blockBitmap.capacity = p.blockBitmap.capacity ∧
    p.AllocBlock.1.blockBitmap.freeBits + 1 = p.blockBitmap.freeBits ∧
    p.AllocBlock.1.dataStartLba = p.dataStartLba ∧
    p.AllocBlock.1.blockBitmapStartLba = p.blockBitmapStartLba ∧
    p.AllocBlock.1.inodesStartLba = p.inodesStartLba ∧
    p.AllocBlock.1.partStartLba = p.partStartLba ∧
    p.AllocBlock.1.partSectorCount = p.partSectorCount := by
  have hcap : p.blockBitmap.capacity ≤ npos := le_trans (Nat.le_add_right _ _) hgeom
  have hne : (p.blockBitmap.Alloc 1).2 ≠ npos := by
    intro heq
    exact absurd (Bitmap.hasRun_one_of_freeBits hfree)
      ((Bitmap.Alloc_spec hwf (by decide) hcap).1 heq).2
  obtain ⟨hin, _, _, _⟩ := (Bitmap.Alloc_spec hwf (by decide) hcap).2 hne
  unfold FsPart.AllocBlock
  dsimp only
  rw [if_pos hne]
  refine ⟨?_, Nat.le_add_left _ _, Bitmap.Alloc_Wf hwf 1, Bitmap.Alloc_capacity _ 1,
    Bitmap.freeBits_Alloc_one hwf hcap hne, rfl, rfl, rfl, rfl, rfl⟩
  intro heq
  have : (p.blockBitmap.Alloc 1).2 + p.dataStartLba < npos := by
    have := hin
    omega
  omega

lemma FsPart.SyncBlockBitmap_success {p : FsPart} {lba : Nat} (h : p.dataStartLba ≤ lba) :
    ∃ p', p.SyncBlockBitmap lba = some p' ∧ p'.blockBitmap = p.blockBitmap ∧
      p'.dataStartLba = p.dataStartLba ∧ p'.blockBitmapStartLba = p.blockBitmapStartLba ∧
      p'.inodesStartLba = p.inodesStartLba ∧ p'.partStartLba = p.partStartLba ∧
      p'.partSectorCount = p.partSectorCount := by
  unfold FsPart.SyncBlockBitmap
  rw [if_pos h]
  exact ⟨_, rfl, rfl, rfl, rfl, rfl, rfl, rfl⟩

lemma IdxNode.GetDirectLba_SetDirectLba_ne (nd : IdxNode) {i j : Nat} (v : Nat) (h : j ≠ i) :
    (nd.SetDirectLba i v).GetDirectLba j = nd.GetDirectLba j := by
  unfold IdxNode.SetDirectLba IdxNode.GetDirectLba
  dsimp only
  rw [if_neg h]

lemma allocBlockLoopAux_success {w : Bool} {newSC : Nat} :
    ∀ fuel i p nd lbas,
      i + fuel = newSC →
      p.blockBitmap.Wf →
      p.blockBitmap.capacity + p.dataStartLba ≤ npos →
      fuel ≤ p.blockBitmap.freeBits →
      (w = true → ∀ j, i ≤ j → j < direct_block_count → nd.GetDirectLba j = 0) →
      (∀ j, i ≤ j → lbas j = 0) →
      ∃ p' nd' lbas',
        allocBlockLoopAux w newSC fuel i p nd lbas = some (p', nd', lbas', none) ∧
        p'.inodesStartLba = p.inodesStartLba ∧ p'.partStartLba = p.partStartLba ∧
        p'.partSectorCount = p.partSectorCount := by
  intro fuel
  induction fuel with
  | zero =>
    intro i p nd lbas _hend _hwf _hgeom _hfree _hdir _hlb
    exact ⟨p, nd, lbas, rfl, rfl, rfl, rfl⟩
  | succ m ih =>
    intro i p nd lbas hend hwf hgeom hfree hdir hlb
    obtain ⟨hne, hdle, hwf', hcap', hfb', hds', _hbs', his', hps', hpc'⟩ :=
      FsPart.AllocBlock_success hwf hgeom (by omega)
    obtain ⟨psync, hsync, hsbm, hsds, hsbs, hsis, hsps, hspc⟩ :=
      @FsPart.SyncBlockBitmap_success p.AllocBlock.1 p.AllocBlock.2
        (by rw [hds']; exact hdle)
    simp only [allocBlockLoopAux]
    rw [if_pos hne]
    by_cases hwi : w = true ∧ i < direct_block_count
    · rw [if_pos hwi]
      rw [if_pos (hdir hwi.1 i le_rfl hwi.2)]
      rw [if_pos (hlb i le_rfl)]
      rw [hsync]
      dsimp only
      obtain ⟨p', nd', lbas', hrec, hg1, hg2, hg3⟩ := ih (i + 1) psync
        (nd.SetDirectLba i p.AllocBlock.2)
        (fun j => if j = i then p.AllocBlock.2 else lbas j)
        (by omega)
        (by rw [hsbm]; exact hwf')
        (by rw [hsbm, hcap', hsds, hds']; exact hgeom)
        (by rw [hsbm]; omega)
        (by
          intro _ j hj1 hj2
          rw [IdxNode.GetDirectLba_SetDirectLba_ne nd _ (by omega)]
          exact hdir hwi.1 j (by omega) hj2)
        (by
          intro j hj
          have hne2 : j ≠ i := by omega
          simp only [if_neg hne2]
          exact hlb j (by omega))
      exact ⟨p', nd', lbas', hrec, by rw [hg1, hsis, his'], by rw [hg2, hsps, hps'],
        by rw [hg3, hspc, hpc']⟩
    · rw [if_neg hwi]
      rw [if_pos (hlb i le_rfl)]
      rw [hsync]
      dsimp only
      obtain ⟨p', nd', lbas', hrec, hg1, hg2, hg3⟩ := ih (i + 1) psync nd
        (fun j => if j = i then p.AllocBlock.2 else lbas j)
        (by omega)
        (by rw [hsbm]; exact hwf')
        (by rw [hsbm, hcap', hsds, hds']; exact hgeom)
        (by rw [hsbm]; omega)
        (by
          intro hww j hj1 hj2
          exact hdir hww j (by omega) hj2)
        (by
          intro j hj
          have hne2 : j ≠ i := by omega
          simp only [if_neg hne2]
          exact hlb j (by omega))
      exact ⟨p', nd', lbas', hrec, by rw [hg1, hsis, his'], by rw [hg2, hsps, hps'],
        by rw [hg3, hspc, hpc']⟩

lemma writeLoopAux_preserve (data : Nat → Nat) (size : Nat) (lbas : Nat → Nat) :
    ∀ fuel isFirst written p nd pos,
      (writeLoopAux data size lbas fuel isFirst written p nd pos).1.inodesStartLba
          = p.inodesStartLba ∧
      (writeLoopAux data size lbas fuel isFirst written p nd pos).1.partStartLba
          = p.partStartLba ∧
      (writeLoopAux data size lbas fuel isFirst written p nd pos).1.partSectorCount
          = p.partSectorCount ∧
      (writeLoopAux data size lbas fuel isFirst written p nd pos).2.1.idx = nd.idx := by
  intro fuel
  induction fuel with
  | zero =>
    intro isFirst written p nd pos
    exact ⟨rfl, rfl, rfl, rfl⟩
  | succ m ih =>
    intro isFirst written p nd pos
    simp only [writeLoopAux]
    by_cases hlt : written < size
    · rw [if_pos hlt]
      exact ih false _ _ _ _
    · rw [if_neg hlt]
      exact ⟨rfl, rfl, rfl, rfl⟩

lemma FsPart.SyncNode_success {p : FsPart} {nd : IdxNode}
    (hidx : nd.idx < max_file_count_per_part)
    (hlba : p.inodesStartLba + nd.idx * sizeof_IdxNode / sector_size
      < p.partStartLba + p.partSectorCount) :
    ∃ p2, p.SyncNode nd = some p2 := by
  unfold FsPart.SyncNode
  rw [if_pos hidx]
  dsimp only
  rw [if_pos hlba]
  exact ⟨_, rfl⟩

lemma allocBlockLoop_success {w : Bool} {newSC i : Nat} {p : FsPart} {nd : IdxNode}
    {lbas : Nat → Nat}
    (hle : i ≤ newSC) (hwf : p.blockBitmap.Wf)
    (hgeom : p.blockBitmap.capacity + p.dataStartLba ≤ npos)
    (hfree : newSC - i ≤ p.blockBitmap.freeBits)
    (hdir : w = true → ∀ j, i ≤ j → j < direct_block_count → nd.GetDirectLba j = 0)
    (hlb : ∀ j, i ≤ j → lbas j = 0) :
    ∃ p' nd' lbas',
      allocBlockLoop w newSC i p nd lbas = some (p', nd', lbas', none) ∧
      p'.inodesStartLba = p.inodesStartLba ∧ p'.partStartLba = p.partStartLba ∧
      p'.partSectorCount = p.partSectorCount :=
  allocBlockLoopAux_success (newSC - i) i p nd lbas (by omega) hwf hgeom hfree hdir hlb

lemma writeFilePhase_success {p : FsPart} {f : FsFile} {n : Nat}
    (hinv : FileInv p f.inode) (hn : 0 < n)
    (hexact : f.inode.size + n = sector_count_per_inode * sector_size)
    (hfree : blocksNeeded f.inode.size n ≤ p.blockBitmap.freeBits) :
    ∃ p' nd lbas, writeFilePhase p f n = some (.proceed p' nd lbas) ∧
      p'.inodesStartLba = p.inodesStartLba ∧ p'.partStartLba = p.partStartLba ∧
      p'.partSectorCount = p.partSectorCount := by
  obtain ⟨hi1, hi2, hi3, hi4, hi5, hi6, hi7, hi8, hi9, hi10⟩ := hinv
  have hsz : f.inode.size ≤ 71680 := hi1
  have hcle : RoundUpDivide f.inode.size sector_size ≤ sector_count_per_inode := by
    show (f.inode.size + 511) / 512 ≤ 140
    omega
  unfold writeFilePhase
  dsimp only
  rw [hexact]
  rw [Nat.mod_eq_of_lt (show sector_count_per_inode * sector_size < u32 by decide)]
  rw [show RoundUpDivide (sector_count_per_inode * sector_size) sector_size
      = sector_count_per_inode from by decide]
  rw [if_neg (lt_irrefl (sector_count_per_inode * sector_size))]
  rw [if_neg (not_not_intro ⟨hcle, le_refl sector_count_per_inode⟩)]
  by_cases hsame : RoundUpDivide f.inode.size sector_size = sector_count_per_inode
  · rw [if_pos hsame]
    rw [if_neg (by decide : ¬ sector_count_per_inode ≤ direct_block_count)]
    have htab : f.inode.GetIndirectTabLba ≠ 0 := hi4.mpr (by rw [hsame]; decide)
    rw [if_neg htab]
    exact ⟨p, f.inode, _, rfl, rfl, rfl, rfl⟩
  · rw [if_neg hsame]
    rw [if_neg (by decide : ¬ sector_count_per_inode ≤ direct_block_count)]
    by_cases h12 : RoundUpDivide f.inode.size sector_size ≤ direct_block_count
    · rw [if_pos h12]
      have hguard : ¬(f.inode.size % sector_size ≠ 0 ∧
          f.inode.GetDirectLba (f.inode.size / sector_size) = 0) := by
        rintro ⟨hm, hz⟩
        refine hi2 (f.inode.size / sector_size) ?_ hz
        have hm' : f.inode.size % 512 ≠ 0 := hm
        have h12' : (f.inode.size + 511) / 512 ≤ 12 := h12
        show f.inode.size / 512 < min ((f.inode.size + 511) / 512) 12
        omega
      rw [if_neg hguard]
      have hbn : blocksNeeded f.inode.size n =
          (sector_count_per_inode - RoundUpDivide f.inode.size sector_size) + 1 := by
        unfold blocksNeeded
        dsimp only
        rw [hexact]
        rw [show RoundUpDivide (sector_count_per_inode * sector_size) sector_size
            = sector_count_per_inode from by decide]
        rw [if_pos ⟨h12, by decide⟩]
      rw [hbn] at hfree
      obtain ⟨hne, hdle, hwf', hcap', hfb', hds', hbs', his', hps', hpc'⟩ :=
        FsPart.AllocBlock_success hi6 hi7 (by omega)
      rw [if_neg hne]
      have htb0 : ¬ f.inode.GetIndirectTabLba ≠ 0 := by
        intro hne2
        have := hi4.mp hne2
        omega
      rw [if_neg htb0]
      obtain ⟨p1, nd1, lbas2, hloop, hg1, hg2, hg3⟩ :=
        @allocBlockLoop_success true sector_count_per_inode
          (RoundUpDivide f.inode.size sector_size) p.AllocBlock.1
          (f.inode.SetIndirectTabLba p.AllocBlock.2)
          (if f.inode.size % sector_size ≠ 0 then
            fun j => if j = f.inode.size / sector_size then
              f.inode.GetDirectLba (f.inode.size / sector_size)
            else 0
          else fun x => 0)
          hcle hwf' (by rw [hcap', hds']; exact hi7) (by omega)
          (by
            intro _ j hj1 hj2
            exact hi3 j hj2 hj1)
          (by
            intro j hj
            by_cases hm : f.inode.size % sector_size ≠ 0
            · rw [if_pos hm]
              have hne3 : j ≠ f.inode.size / sector_size := by
                have hm2 : f.inode.size % 512 ≠ 0 := hm
                have hj2 : (f.inode.size + 511) / 512 ≤ j := hj
                show ¬ j = f.inode.size / 512
                omega
              simp only [if_neg hne3]
            · rw [if_neg hm])
      rw [hloop]
      dsimp only
      refine ⟨_, nd1, lbas2, rfl, ?_, ?_, ?_⟩
      · show p1.inodesStartLba = p.inodesStartLba
        rw [hg1, his']
      · show p1.partStartLba = p.partStartLba
        rw [hg2, hps']
      · show p1.partSectorCount = p.partSectorCount
        rw [hg3, hpc']
    · rw [if_neg h12]
      have hgt : direct_block_count < RoundUpDivide f.inode.size sector_size := by omega
      have htab : f.inode.GetIndirectTabLba ≠ 0 := hi4.mpr hgt
      rw [if_neg htab]
      have hbn : blocksNeeded f.inode.size n =
          (sector_count_per_inode - RoundUpDivide f.inode.size sector_size) + 0 := by
        unfold blocksNeeded
        dsimp only
        rw [hexact]
        rw [show RoundUpDivide (sector_count_per_inode * sector_size) sector_size
            = sector_count_per_inode from by decide]
        rw [if_neg (by intro hcon; exact h12 hcon.1)]
      rw [hbn] at hfree
      obtain ⟨p1, nd1, lbas2, hloop, hg1, hg2, hg3⟩ :=
        @allocBlockLoop_success false sector_count_per_inode
          (RoundUpDivide f.inode.size sector_size) p f.inode
          (fun j => if direct_block_count ≤ j ∧ j < sector_count_per_inode then
            readLE32 (p.disk.readSector f.inode.GetIndirectTabLba) (j - direct_block_count)
          else 0)
          hcle hi6 hi7 (by omega)
          (by intro hww; exact Bool.noConfusion hww)
          (by
            intro j hj
            dsimp only
            by_cases hc : direct_block_count ≤ j ∧ j < sector_count_per_inode
            · rw [if_pos hc]
              exact hi5 hgt j hc.2 hj
            · rw [if_neg hc])
      rw [hloop]
      dsimp only
      refine ⟨_, nd1, lbas2, rfl, ?_, ?_, ?_⟩
      · show p1.inodesStartLba = p.inodesStartLba
        exact hg1
      · show p1.partStartLba = p.partStartLba
        exact hg2
      · show p1.partSectorCount = p.partSectorCount
        exact hg3

/-! ## Claim theorems -/

/-- C6: for every initialized bitmap (well-formed bytes, capacity below the
`npos` sentinel) and every `n > 0`, `Bitmap::Alloc(n)` either returns the
start index of the leftmost run of `n` zero bits — no run starts earlier —
and sets exactly those `n` bits, leaving every other bit unchanged; or, when
no run of `n` zero bits exists, returns `npos` and leaves the bitmap
unchanged. -/
theorem C6_bitmap_alloc_leftmost {bm : Bitmap} {n : Nat} (hwf : bm.Wf) (hn : 0 < n)
    (hcap : bm.capacity ≤ npos) :
    ((bm.Alloc n).2 ≠ npos →
      ((bm.Alloc n).2 + n ≤ bm.capacity ∧ bm.FreeRun (bm.Alloc n).2 n) ∧
      (∀ s, s + n ≤ bm.capacity → bm.FreeRun s n → (bm.Alloc n).2 ≤ s) ∧
      (∀ i, (bm.Alloc n).1.IsAlloc i =
        (bm.IsAlloc i ||
          (decide ((bm.Alloc n).2 ≤ i) && decide (i < (bm.Alloc n).2 + n))))) ∧
    ((bm.Alloc n).2 = npos → ¬ bm.HasRun n ∧ (bm.Alloc n).1 = bm) := by
  obtain ⟨hnone, hsome⟩ := Bitmap.Alloc_spec hwf hn hcap
  constructor
  · intro hne
    obtain ⟨h1, h2, h3, h4⟩ := hsome hne
    refine ⟨⟨h1, h2⟩, fun s hs1 hs2 => ?_, h4⟩
    by_contra hlt
    exact h3 s (by omega) ⟨hs1, hs2⟩
  · intro heq
    obtain ⟨h1, h2⟩ := hnone heq
    exact ⟨h2, h1⟩

/-- Witness for C6 at the concrete bitmap `0b00000110` with `n = 2`: the
hypotheses hold and the theorem applies. -/
theorem C6_bitmap_alloc_leftmost_witness :
    (c6bm.Wf ∧ 0 < 2 ∧ c6bm.capacity ≤ npos) ∧
    (((c6bm.Alloc 2).2 ≠ npos →
      ((c6bm.Alloc 2).2 + 2 ≤ c6bm.capacity ∧ c6bm.FreeRun (c6bm.Alloc 2).2 2) ∧
      (∀ s, s + 2 ≤ c6bm.capacity → c6bm.FreeRun s 2 → (c6bm.Alloc 2).2 ≤ s) ∧
      (∀ i, (c6bm.Alloc 2).1.IsAlloc i =
        (c6bm.IsAlloc i ||
          (decide ((c6bm.Alloc 2).2 ≤ i) && decide (i < (c6bm.Alloc 2).2 + 2))))) ∧
    ((c6bm.Alloc 2).2 = npos → ¬ c6bm.HasRun 2 ∧ (c6bm.Alloc 2).1 = c6bm)) :=
  ⟨⟨by decide, by decide, by decide⟩,
    C6_bitmap_alloc_leftmost (by decide) (by decide) (by decide)⟩

/-- C10: for every pool type and every memory state, `mem::Free` on the
null pointer returns immediately with the state — bitmaps, free counts,
descriptor free lists and page mappings — unchanged. -/
theorem C10_free_null_noop : ∀ (ty : PoolType) (st : MemState), MemFree ty st 0 = some st :=
  fun _ _ => rfl

/-- C9: starting from a fresh kernel heap containing no arenas, the
sequence `a = Allocate(100); b = Allocate(300); Free(a); c = Allocate(100)`
completes with `c == a`, and the 128-byte block descriptor (table index 3)
then holds exactly `blocks_per_arena - 1 = 30` free blocks out of 31. -/
theorem C9_alloc_stress :
    c9Run.map (fun r => (decide (r.1 = r.2.1),
      ((r.2.2.descs.getD 3 noDesc).freeBlocks.length,
        (r.2.2.descs.getD 3 noDesc).blockCountPerArena))) = some (true, 30, 31) := by
  rfl

/-- C7: evaluation of the composed `AllocPages(pool_type, 1)` at a state
whose physical pool is exhausted while the virtual-address pool starts
all-free (`bytes [0]`, free count 8): the call returns null (0), yet the
virtual-address pool's bitmap keeps the reserved bit set (`bytes [1]`) and
its free count stays decremented at 7 — the reservation is not rolled back
when the very first physical allocation fails. -/
theorem C7_allocpages_failure_leaks_va :
    ((c7State.AllocPages 1).map (fun r => (r.2, r.1.va.bitmap.bytes, r.1.va.freeCount)),
      c7State.va.bitmap.bytes, c7State.va.freeCount) = (some (0, [1], 7), [0], 8) := by
  rfl

/-- C1: evaluation of `SearchPath` on a mounted partition whose root holds
a directory `a` containing a file `b`, with the absolute path `/a/b`: on
the first directory step the source opens `record.inode_idx` — still the
default `npos` — instead of the found entry's inode, so `OpenNode`'s
assertion `idx < max_file_count_per_part` fails and the kernel panics
(`none`) instead of completing the walk. -/
theorem C1_searchpath_panics_on_directory_step :
    c1Part.SearchPath ["a", "b"] c1Record0 = none := by
  rfl

/-- C2: evaluation of the write-seek-read round trip at `n = 512` on a
fresh file: the write returns 512, but the subsequent `ReadFile` computes
`end_sector_idx = (pos + size) / 512 = 1` and trips its own assertion
`lbas[1] != 0` (the one-sector file has no second direct block), so the
read panics (`none`) instead of returning 512. -/
theorem C2_roundtrip_panics_at_512 :
    (WriteFile c2Part c2File c2Data 512).map (fun r => r.2.2) = some 512 ∧ c2Run = none := by
  exact ⟨rfl, rfl⟩

/-- C3 counterexample: writing 512 bytes to a fresh file of size 0 returns
512, but the file position afterwards is 511, not `old + n = 512`. -/
theorem C3_pos_counterexample :
    (WriteFile c2Part c2File c2Data 512).map (fun r => (r.2.2, r.2.1.pos)) = some (512, 511) ∧
      (511 : Nat) ≠ 0 + 512 := by
  exact ⟨rfl, by decide⟩

/-- C4 counterexample: with inode size 1 and `n = 2^32 - 1`, the sum
`old + n` wraps to 0 in the 32-bit addition, so the size check passes; the
call then dies on the assertion `curr_sector_count <= new_sector_count`
(panic, `none`) instead of failing with return value 0 as the claim states
for `old + n > 140 x 512`. -/
theorem C4_overflow_counterexample :
    WriteFile c2Part c4File c2Data 4294967295 = none ∧
      sector_count_per_inode * sector_size < 1 + 4294967295 := by
  exact ⟨rfl, by decide⟩

/-- C5 counterexample: seeking with origin `Begin` and offset `-1` on a
file of size 1 sets and returns position 1 (the negative target wraps to a
huge unsigned value and the unsigned `min` clamps to the size), while the
claim's `clamp(0 + (-1), 0, 1)` is 0. -/
theorem C5_seek_counterexample :
    (SeekFile c5File (-1) SeekOrigin.Begin).map (fun r => r.2) = some 1 ∧
      seekClaimPos 0 (-1) 1 = 0 ∧ (1 : Int) ≠ 0 := by
  exact ⟨rfl, by decide, by decide⟩

lemma seek_arith {b size : Nat} {offset : Int} (hb : b ≤ size)
    (hsize : size ≤ sector_count_per_inode * sector_size)
    (hlo : -(2 ^ 31 : Int) ≤ offset) (hhi : offset < 2 ^ 31) :
    min ((b + (offset % (2 ^ 32 : Int)).toNat) % u32) size =
      if (b : Int) + offset < 0 then size else min ((b : Int) + offset).toNat size := by
  have hu : u32 = 4294967296 := by norm_num [u32]
  unfold sector_size sector_count_per_inode at hsize
  rw [hu]
  rcases le_or_lt 0 offset with hpos | hneg
  · have hmod : offset % (2 ^ 32 : Int) = offset := Int.emod_eq_of_lt hpos (by omega)
    rw [hmod]
    have h1 : (offset.toNat : Int) = offset := Int.toNat_of_nonneg hpos
    have h2 : b + offset.toNat < 4294967296 := by omega
    rw [Nat.mod_eq_of_lt h2]
    rw [if_neg (by omega : ¬ ((b : Int) + offset < 0))]
    congr 1
    omega
  · have hmod : offset % (2 ^ 32 : Int) = offset + 2 ^ 32 := by omega
    rw [hmod]
    have htn : (((offset + 2 ^ 32).toNat : Int)) = offset + 2 ^ 32 :=
      Int.toNat_of_nonneg (by omega)
    by_cases hcase : (b : Int) + offset < 0
    · rw [if_pos hcase]
      have h2 : b + (offset + 2 ^ 32).toNat < 4294967296 := by omega
      rw [Nat.mod_eq_of_lt h2]
      omega
    · rw [if_neg hcase]
      have h2 : b + (offset + 2 ^ 32).toNat = (b + offset).toNat + 4294967296 := by omega
      rw [h2]
      have h3 : (((b : Int) + offset).toNat + 4294967296) % 4294967296 =
          ((b : Int) + offset).toNat % 4294967296 := Nat.add_mod_right _ _
      have h4 : ((b : Int) + offset).toNat < 4294967296 := by omega
      rw [h3, Nat.mod_eq_of_lt h4]

/-- C5 (amended): for every open file (position within the size, size
within the 140-block maximum) and every signed 32-bit offset, `SeekFile`
sets and returns `min(b + offset, size)` when the integer target
`b + offset` is non-negative (with `b` as the claim's origin base), and
`size` — not 0 — when the target is negative, because the unsigned
arithmetic wraps the target above any file size before the `min`. -/
theorem C5_seek_behavior {f : FsFile} {offset : Int} {origin : SeekOrigin}
    (hsize : f.inode.size ≤ sector_count_per_inode * sector_size)
    (hpos : f.pos ≤ f.inode.size)
    (hlo : -(2 ^ 31 : Int) ≤ offset) (hhi : offset < 2 ^ 31) :
    SeekFile f offset origin =
      some ({ f with pos := seekAmendedPos f offset origin }, seekAmendedPos f offset origin) := by
  have hoff32 : (offset % (2 ^ 32 : Int)).toNat < 2 ^ 32 := by
    have h0 : 0 ≤ offset % (2 ^ 32 : Int) := Int.emod_nonneg offset (by omega)
    have h1 : offset % (2 ^ 32 : Int) < 2 ^ 32 := Int.emod_lt_of_pos offset (by omega)
    omega
  unfold SeekFile seekAmendedPos seekBase
  cases origin with
  | Begin =>
    have hb : min ((offset % (2 ^ 32 : Int)).toNat) f.inode.size =
        min ((0 + (offset % (2 ^ 32 : Int)).toNat) % u32) f.inode.size := by
      rw [Nat.zero_add, Nat.mod_eq_of_lt (by unfold u32; omega)]
    simp only
    rw [hb, seek_arith (by omega) hsize hlo hhi,
      if_pos (by split <;> simp [min_le_right])]
  | Curr =>
    simp only
    rw [seek_arith hpos hsize hlo hhi, if_pos (by split <;> simp [min_le_right])]
  | End =>
    simp only
    rw [seek_arith (le_refl _) hsize hlo hhi, if_pos (by split <;> simp [min_le_right])]

/-- Witness for C5 at the one-byte file with `offset = -1`, origin
`Begin`: the hypotheses hold and the characterization applies (the
resulting position is the size, 1). -/
theorem C5_seek_behavior_witness :
    (c5File.inode.size ≤ sector_count_per_inode * sector_size ∧
      c5File.pos ≤ c5File.inode.size ∧
      -(2 ^ 31 : Int) ≤ -1 ∧ (-1 : Int) < 2 ^ 31) ∧
    SeekFile c5File (-1) SeekOrigin.Begin =
      some ({ c5File with pos := seekAmendedPos c5File (-1) SeekOrigin.Begin },
        seekAmendedPos c5File (-1) SeekOrigin.Begin) :=
  ⟨⟨by decide, by decide, by decide, by decide⟩,
    C5_seek_behavior (by decide) (by decide) (by decide) (by decide)⟩

/-- C8 counterexample: at `value = max = 1` with a waiting thread,
`Increase` leaves the wait list untouched and unblocks nobody, while the
claim requires the head to be detached and unblocked whenever the wait
list is non-empty. -/
theorem C8_increase_counterexample :
    Semaphore.Increase ⟨1, 1, [7]⟩ = some (⟨1, 1, [7]⟩, none) ∧ ([7] : List Nat) ≠ [] := by
  exact ⟨rfl, by decide⟩

/-- C8 (amended): for every counting semaphore with `value <= max`,
`Increase` runs under interrupts disabled and: when `value < max` it
detaches and unblocks the head of the wait list if the list is non-empty
and then increments `value`; when `value = max` it changes nothing and
unblocks nobody — so `value` is incremented if and only if `value < max`,
but the head waiter is popped only when additionally `value < max`. -/
theorem C8_increase_behavior {s : Semaphore} (hle : s.val ≤ s.maxv) :
    Semaphore.Increase s =
      (if s.val < s.maxv then
        match s.waiters with
        | t :: rest => some ({ s with val := s.val + 1, waiters := rest }, some t)
        | [] => some ({ s with val := s.val + 1 }, none)
      else some (s, none)) := by
  unfold Semaphore.Increase
  rw [if_pos hle]
  by_cases h : s.val < s.maxv
  · rw [if_pos (by omega : s.val ≠ s.maxv), if_pos h]
  · rw [if_neg (by omega : ¬ s.val ≠ s.maxv), if_neg h]

/-- Witness for C8 at `value 0, max 1`, waiter `5`: the hypothesis holds
and the characterization applies. -/
theorem C8_increase_behavior_witness :
    (0 : Nat) ≤ 1 ∧
      Semaphore.Increase ⟨0, 1, [5]⟩ =
        (if (0 : Nat) < 1 then
          match ([5] : List Nat) with
          | t :: rest => some (⟨0 + 1, 1, rest⟩, some t)
          | [] => some (⟨0 + 1, 1, []⟩, none)
        else some (⟨0, 1, [5]⟩, none)) :=
  ⟨by decide, C8_increase_behavior (by decide)⟩


/-- C3 (amended): for every open file whose inode size is `old`, whenever
`WriteFile` successfully writes `n > 0` bytes (returning `n`, with
`old + n` below `2^32`), the file's position afterwards equals
`old + n - 1`: the code presets `file.pos = curr_size - 1` in 32-bit
arithmetic and then advances it by each chunk written. -/
theorem C3_write_advances_pos {p : FsPart} {f : FsFile} {data : Nat → Nat} {n : Nat}
    {p' : FsPart} {f' : FsFile}
    (hrun : WriteFile p f data n = some (p', f', n)) (hn : 0 < n)
    (hfit : f.inode.size + n < u32) :
    f'.pos = f.inode.size + n - 1 := by
  have hu : u32 = 4294967296 := by norm_num [u32]
  unfold WriteFile at hrun
  cases hphase : writeFilePhase p f n with
  | none =>
    rw [hphase] at hrun
    exact Option.noConfusion hrun
  | some ph =>
    rw [hphase] at hrun
    cases ph with
    | early p1 f1 w =>
      have hw0 : w = 0 := writeFilePhase_early_zero hphase
      dsimp only at hrun
      simp only [Option.some.injEq, Prod.mk.injEq] at hrun
      obtain ⟨-, -, hwn⟩ := hrun
      omega
    | proceed p1 nd lbas =>
      obtain ⟨hsize, _⟩ := writeFilePhase_proceed_fields hphase
      dsimp only at hrun
      have hpos0 : (nd.size + u32 - 1) % u32 < u32 := Nat.mod_lt _ (by omega)
      obtain ⟨hwr, hpe⟩ := writeLoopAux_spec data n lbas n true 0 p1 nd
        ((nd.size + u32 - 1) % u32) (by omega) (by omega) hpos0
      cases hsync : ((writeLoop data n lbas true 0 p1 nd ((nd.size + u32 - 1) % u32)).1.SyncNode
          (writeLoop data n lbas true 0 p1 nd ((nd.size + u32 - 1) % u32)).2.1) with
      | none =>
        rw [hsync] at hrun
        exact Option.noConfusion hrun
      | some p2 =>
        rw [hsync] at hrun
        dsimp only at hrun
        simp only [Option.some.injEq, Prod.mk.injEq] at hrun
        obtain ⟨-, hf', -⟩ := hrun
        have hconv : writeLoop data n lbas true 0 p1 nd ((nd.size + u32 - 1) % u32) =
            writeLoopAux data n lbas n true 0 p1 nd ((nd.size + u32 - 1) % u32) := rfl
        rw [← hf']
        show (writeLoop data n lbas true 0 p1 nd ((nd.size + u32 - 1) % u32)).2.2.2 =
          f.inode.size + n - 1
        rw [hconv, hpe, hsize]
        rw [hu] at hfit ⊢
        omega

/-- Witness for C3: the concrete 512-byte write to the fresh zero-size file
of the `C2` scenario ends with the position at `0 + 512 - 1 = 511`. -/
theorem C3_write_advances_pos_witness :
    c3Out.2.1.pos = c2File.inode.size + 512 - 1 :=
  @C3_write_advances_pos c2Part c2File c2Data 512 c3Out.1 c3Out.2.1
    (by rfl) (by decide) (by decide)


/-- C4 (amended): for every open file with inode size `old` satisfying the
file-state invariant, `WriteFile` of `n > 0` bytes fails (returns 0) with
the partition — inode, file position and in-memory block bitmap — entirely
unchanged when `140 × 512 < old + n < 2^32` (the 32-bit size check compares
the wrapped sum, so only sums below `2^32` are rejected this way); and
writing so that the total is exactly `140 × 512` bytes succeeds, returning
`n`, when enough free blocks exist for the new sectors and the indirect
table. -/
theorem C4_write_size_bounds {p : FsPart} {f : FsFile} {data : Nat → Nat} {n : Nat}
    (hinv : FileInv p f.inode) (hn : 0 < n) :
    (sector_count_per_inode * sector_size < f.inode.size + n → f.inode.size + n < u32 →
      WriteFile p f data n = some (p, f, 0)) ∧
    (f.inode.size + n = sector_count_per_inode * sector_size →
      blocksNeeded f.inode.size n ≤ p.blockBitmap.freeBits →
      ∃ p' f', WriteFile p f data n = some (p', f', n)) := by
  have hinv2 := hinv
  obtain ⟨-, -, -, -, -, -, -, -, hi9, hi10⟩ := hinv2
  have hu : u32 = 4294967296 := by norm_num [u32]
  constructor
  · intro hover hfit
    unfold WriteFile writeFilePhase
    dsimp only
    rw [if_pos (show (f.inode.size + n) % u32 > sector_count_per_inode * sector_size from by
      rw [Nat.mod_eq_of_lt hfit]; exact hover)]
  · intro hexact hfree
    obtain ⟨p1, nd1, lbas1, hphase, hg1, hg2, hg3⟩ :=
      writeFilePhase_success hinv hn hexact hfree
    obtain ⟨hsz, hidx⟩ := writeFilePhase_proceed_fields hphase
    unfold WriteFile
    rw [hphase]
    dsimp only
    have hconv : writeLoop data n lbas1 true 0 p1 nd1 ((nd1.size + u32 - 1) % u32) =
        writeLoopAux data n lbas1 n true 0 p1 nd1 ((nd1.size + u32 - 1) % u32) := rfl
    obtain ⟨hq1, hq2, hq3, hq4⟩ := writeLoopAux_preserve data n lbas1 n true 0 p1 nd1
      ((nd1.size + u32 - 1) % u32)
    obtain ⟨hwr, -⟩ := writeLoopAux_spec data n lbas1 n true 0 p1 nd1
      ((nd1.size + u32 - 1) % u32) (by omega) (by omega) (Nat.mod_lt _ (by rw [hu]; omega))
    obtain ⟨p2, hsync⟩ := @FsPart.SyncNode_success
      (writeLoopAux data n lbas1 n true 0 p1 nd1 ((nd1.size + u32 - 1) % u32)).1
      (writeLoopAux data n lbas1 n true 0 p1 nd1 ((nd1.size + u32 - 1) % u32)).2.1
      (by rw [hq4, hidx]; exact hi9)
      (by rw [hq1, hq2, hq3, hq4, hidx, hg1, hg2, hg3]; exact hi10)
    rw [hconv, hsync]
    dsimp only
    refine ⟨p2,
      ⟨(writeLoopAux data n lbas1 n true 0 p1 nd1 ((nd1.size + u32 - 1) % u32)).2.1,
       (writeLoopAux data n lbas1 n true 0 p1 nd1 ((nd1.size + u32 - 1) % u32)).2.2.2⟩, ?_⟩
    rw [hwr]

set_option maxRecDepth 40000 in
/-- Witness for C4 at the fresh zero-size file on a 144-block partition:
the over-limit write of 71681 bytes returns 0 leaving everything unchanged,
and the exact-fit write of 71680 bytes succeeds returning 71680. -/
theorem C4_write_size_bounds_witness :
    (FileInv c4wPart c2File.inode ∧ (0:Nat) < 71681 ∧
      sector_count_per_inode * sector_size < c2File.inode.size + 71681 ∧
      c2File.inode.size + 71681 < u32 ∧
      WriteFile c4wPart c2File c2Data 71681 = some (c4wPart, c2File, 0)) ∧
    (FileInv c4wPart c2File.inode ∧ (0:Nat) < 71680 ∧
      c2File.inode.size + 71680 = sector_count_per_inode * sector_size ∧
      blocksNeeded c2File.inode.size 71680 ≤ c4wPart.blockBitmap.freeBits ∧
      ∃ p' f', WriteFile c4wPart c2File c2Data 71680 = some (p', f', 71680)) :=
  ⟨⟨by decide, by decide, by decide, by decide,
    (C4_write_size_bounds (by decide) (by decide)).1 (by decide) (by decide)⟩,
   ⟨by decide, by decide, by decide, by decide,
    (C4_write_size_bounds (by decide) (by decide)).2 (by decide) (by decide)⟩⟩

end OS
